import Mathlib

/-
  Verification of the FSM/regex/lexer core of the cky repository.

  The C sources are shallowly embedded: wide characters (`wchar_t`) become
  mathematical integers, the `smb_al` array lists become Lean lists, and the
  in-place mutating operations become functions returning the updated value.
  Out-of-range `al_get` calls on a state index yield no usable data in C; the
  embedding reads them as an empty edge list (`fsm_edges`), and an
  out-of-range `fsm_add_trans` leaves the machine unchanged (the C behaviour
  there is undefined; no verified theorem depends on that case).
-/

/-- Wide character (`wchar_t`), modelled as a mathematical integer. -/
abbrev WChar := Int

/-- The EPSILON sentinel, `(wchar_t)-2` in fsm.h. -/
def EPSILON : WChar := -2

/-- `FSM_TRANS_POSITIVE` from fsm.h. -/
def FSM_TRANS_POSITIVE : Int := 0

/-- `FSM_TRANS_NEGATIVE` from fsm.h. -/
def FSM_TRANS_NEGATIVE : Int := 1

/-- `FSM_SIM_ACCEPTING` from fsm.h. -/
def FSM_SIM_ACCEPTING : Int := 0

/-- `FSM_SIM_NOT_ACCEPTING` from fsm.h. -/
def FSM_SIM_NOT_ACCEPTING : Int := 1

/-- `FSM_SIM_REJECTED` from fsm.h. -/
def FSM_SIM_REJECTED : Int := 2

/-- `FSM_SIM_ACCEPTED` from fsm.h. -/
def FSM_SIM_ACCEPTED : Int := 3

/-- An FSM transition (`fsm_trans` in fsm.h): a type (positive or negative),
the parallel `start`/`end` range-endpoint arrays (paired here), and a
destination state index.  The C arrays are NUL-terminated; `ranges` holds the
`n` allocated pairs, and scans stop at a NUL endpoint just as the C loops do. -/
structure FsmTrans where
  type : Int
  ranges : List (WChar × WChar)
  dest : Int
deriving Repr, DecidableEq

/-- `fsm_trans_check` (fsm/datastructs.c): scan the ranges until a NUL
endpoint; if some scanned range contains `c` the answer is `type == positive`,
otherwise it is the opposite. -/
def fsm_trans_check (ft : FsmTrans) (c : WChar) : Bool :=
  if (ft.ranges.takeWhile (fun r => !(r.1 == 0) && !(r.2 == 0))).any
      (fun r => decide (r.1 ≤ c) && decide (c ≤ r.2)) then
    ft.type == FSM_TRANS_POSITIVE
  else
    !(ft.type == FSM_TRANS_POSITIVE)

/-- `fsm_trans_create_single` (fsm/datastructs.c).  The C function prints an
invalid-range diagnostic to stderr when `end < start` but stores the range and
returns the transition regardless; the Boolean records whether the diagnostic
fired. -/
def fsm_trans_create_single (start end_ : WChar) (type dest : Int) :
    Bool × FsmTrans :=
  (decide (end_ < start), { type := type, ranges := [(start, end_)], dest := dest })

/-- `fsm_trans_copy` (fsm/datastructs.c): `rangeSize = wcslen(ft->start)`, so
the copy keeps the range pairs up to the first NUL in the start array. -/
def fsm_trans_copy (ft : FsmTrans) : FsmTrans :=
  { type := ft.type,
    ranges := ft.ranges.takeWhile (fun r => !(r.1 == 0)),
    dest := ft.dest }

/-- An FSM (`fsm` in fsm.h): start state index, outer list indexed by state
holding each state's outgoing transitions, and the accepting state list. -/
structure Fsm where
  start : Int
  transitions : List (List FsmTrans)
  accepting : List Int
deriving Repr, DecidableEq

/-- The outgoing transition list of a state
(`al_get(&f->transitions, state)`); out-of-range reads yield no list. -/
def fsm_edges (f : Fsm) (s : Int) : List FsmTrans :=
  if 0 ≤ s then f.transitions.getD s.toNat [] else []

/-- `fsm_add_state` (fsm/datastructs.c): append a state with an empty edge
list, optionally recording it as accepting; returns the machine and the new
state's index. -/
def fsm_add_state (f : Fsm) (accepting : Bool) : Fsm × Int :=
  let index : Int := (f.transitions.length : Int)
  ({ f with
      transitions := f.transitions ++ [[]],
      accepting := if accepting then f.accepting ++ [index] else f.accepting },
   index)

/-- `fsm_add_trans` (fsm/datastructs.c): append `ft` to the edge list of
`state`. -/
def fsm_add_trans (f : Fsm) (state : Int) (ft : FsmTrans) : Fsm :=
  if 0 ≤ state ∧ state.toNat < f.transitions.length then
    { f with
        transitions :=
          f.transitions.set state.toNat (f.transitions.getD state.toNat [] ++ [ft]) }
  else f

/-- All transition destinations occurring anywhere in the machine; used to
bound the breadth-first search of the epsilon closure. -/
def fsm_all_dests (f : Fsm) : List Int :=
  (f.transitions.map (fun l => l.map (fun t => t.dest))).flatten

/-- Push step of `fsm_sim_nondet_epsilon_closure`'s inner loop: for each
transition out of the state being expanded, enqueue its destination when the
transition accepts EPSILON and the destination is in neither the queue nor the
closure. -/
def epsPush (closure : List Int) : List FsmTrans → List Int → List Int
  | [], queue => queue
  | ft :: rest, queue =>
    if fsm_trans_check ft EPSILON && !(queue.contains ft.dest)
        && !(closure.contains ft.dest) then
      epsPush closure rest (queue ++ [ft.dest])
    else
      epsPush closure rest queue

/-- The breadth-first search loop of `fsm_sim_nondet_epsilon_closure`
(fsm/simulation.c): pop the front of the visit queue, append it to the
closure, and enqueue unvisited epsilon successors.  The C loop runs until the
queue is empty; the fuel below is enough for that
(see `epsClosureLoop_final`). -/
def epsClosureLoop (f : Fsm) : Nat → List Int → List Int → List Int
  | 0, _, closure => closure
  | _ + 1, [], closure => closure
  | fuel + 1, d :: rest, closure =>
    let closure' := closure ++ [d]
    epsClosureLoop f fuel (epsPush closure' (fsm_edges f d) rest) closure'

/-- Fuel for the closure BFS: every queued element is the initial state or
some transition's destination, and no element is queued twice, so the loop
body runs at most this many times. -/
def closureFuel (f : Fsm) (state : Int) : Nat :=
  ((state :: fsm_all_dests f).dedup).length

/-- `fsm_sim_nondet_epsilon_closure` (fsm/simulation.c): the set of states
reachable from `state` by epsilon transitions, computed breadth-first. -/
def fsm_sim_nondet_epsilon_closure (f : Fsm) (state : Int) : List Int :=
  epsClosureLoop f (closureFuel f state) [state] []

/-- One epsilon move: a transition out of `p` that accepts EPSILON and leads
to `q`.  This is the edge relation the closure BFS traverses. -/
def EpsStep (f : Fsm) (p q : Int) : Prop :=
  ∃ ft ∈ fsm_edges f p, fsm_trans_check ft EPSILON = true ∧ ft.dest = q

/-- Reachability by zero or more epsilon moves: the specification-level
epsilon closure ("the set of all states that can be reached from this state
without consuming any input"). -/
def EpsReach (f : Fsm) : Int → Int → Prop :=
  Relation.ReflTransGen (EpsStep f)

/-- `fsm_sim_nondet_union_and_delete` (fsm/simulation.c): append to `first`
the elements of `second` not already present. -/
def fsm_sim_nondet_union_and_delete (first second : List Int) : List Int :=
  second.foldl (fun acc d => if acc.contains d then acc else acc ++ [d]) first

/-- `fsm_sim_nondet_non_empty_intersection` (fsm/simulation.c): true when the
two lists share an element. -/
def fsm_sim_nondet_non_empty_intersection (first second : List Int) : Bool :=
  first.any (fun d => second.contains d)

/-- Inner double loop of `fsm_sim_nondet_step`: collect, without duplicates,
the destinations of transitions out of the current states that accept `c`. -/
def fsmMoves (f : Fsm) (curr : List Int) (c : WChar) : List Int :=
  curr.foldl
    (fun next s =>
      (fsm_edges f s).foldl
        (fun next t =>
          if fsm_trans_check t c && !(next.contains t.dest) then next ++ [t.dest]
          else next)
        next)
    []

/-- The state-set transformation of `fsm_sim_nondet_step` (fsm/simulation.c):
move on `c` from every current state, then union in the epsilon closure of
each state of the original move list. -/
def fsm_sim_nondet_step_curr (f : Fsm) (curr : List Int) (c : WChar) : List Int :=
  let next := fsmMoves f curr c
  next.foldl
    (fun acc s =>
      fsm_sim_nondet_union_and_delete acc (fsm_sim_nondet_epsilon_closure f s))
    next

/-- A nondeterministic simulation (`fsm_sim` in fsm.h): the machine, the
current state set, and the remaining input. -/
structure FsmSim where
  f : Fsm
  curr : List Int
  input : List WChar
deriving Repr, DecidableEq

/-- `fsm_sim_nondet_begin` (fsm/simulation.c): the initial simulation state is
the epsilon closure of the machine's start state, with the whole input
retained. -/
def fsm_sim_nondet_begin (f : Fsm) (input : List WChar) : FsmSim :=
  { f := f, curr := fsm_sim_nondet_epsilon_closure f f.start, input := input }

/-- `fsm_sim_nondet_state` (fsm/simulation.c), embedded as explicit state
passing: the function only reads `s->curr`, `s->f->accepting` and
`*s->input`, so the simulation it leaves behind is the one it received.  The
first component is the returned classification, the second the simulation
after the call. -/
def fsm_sim_nondet_state_impl (s : FsmSim) : Int × FsmSim :=
  let classification :=
    if s.curr.length = 0 then FSM_SIM_REJECTED
    else if fsm_sim_nondet_non_empty_intersection s.f.accepting s.curr then
      if s.input.isEmpty then FSM_SIM_ACCEPTED else FSM_SIM_ACCEPTING
    else
      if s.input.isEmpty then FSM_SIM_REJECTED else FSM_SIM_NOT_ACCEPTING
  (classification, s)

/-- The classification returned by `fsm_sim_nondet_state`. -/
def fsm_sim_nondet_state (s : FsmSim) : Int :=
  (fsm_sim_nondet_state_impl s).1

/-- `fsm_sim_nondet_step` (fsm/simulation.c) on the simulation record:
transform the state set with the current input character and advance the
input cursor. -/
def fsm_sim_nondet_step (s : FsmSim) : FsmSim :=
  { s with
      curr := fsm_sim_nondet_step_curr s.f s.curr (s.input.headD 0),
      input := s.input.tail }

/-- The driver loop of `fsm_sim_nondet` (fsm/simulation.c), on the state set:
classify, and while neither rejected nor accepted, step.  With input left,
only an empty state set ends the run (rejected); with input exhausted the
classification is accepted exactly when the state set meets the accepting
list. -/
def fsm_sim_nondet_run (f : Fsm) (curr : List Int) : List WChar → Bool
  | [] =>
    if curr.isEmpty then false
    else fsm_sim_nondet_non_empty_intersection f.accepting curr
  | c :: rest =>
    if curr.isEmpty then false
    else fsm_sim_nondet_run f (fsm_sim_nondet_step_curr f curr c) rest

/-- `fsm_sim_nondet` (fsm/simulation.c): begin, then step until the
classification is rejected or accepted. -/
def fsm_sim_nondet (f : Fsm) (input : List WChar) : Bool :=
  fsm_sim_nondet_run f (fsm_sim_nondet_epsilon_closure f f.start) input

/-- Well-formedness of an FSM per the spec's data-model invariants: the start
state, every transition destination, and every accepting index name a valid
state. -/
def FsmWf (f : Fsm) : Prop :=
  (0 ≤ f.start ∧ f.start.toNat < f.transitions.length) ∧
  (∀ l ∈ f.transitions, ∀ t ∈ l, 0 ≤ t.dest ∧ t.dest.toNat < f.transitions.length) ∧
  (∀ a ∈ f.accepting, 0 ≤ a ∧ a.toNat < f.transitions.length)

instance fsmWfDecidable (f : Fsm) : Decidable (FsmWf f) := by
  unfold FsmWf
  infer_instance

/-- A clone of a transition with its destination shifted, as built inside
`fsm_copy_trans` (regex.c): `new = fsm_trans_copy(old); new->dest += offset`. -/
def shiftTrans (offset : Int) (t : FsmTrans) : FsmTrans :=
  let c := fsm_trans_copy t
  { c with dest := c.dest + offset }

/-- `fsm_copy_trans` (regex.c): append clones of all of `src`'s states to
`dst`, rewriting each cloned edge's destination by the old state count of
`dst`.  Accepting list and start state of `dst` are untouched. -/
def fsm_copy_trans (dst src : Fsm) : Fsm :=
  let offset : Int := (dst.transitions.length : Int)
  { dst with
      transitions :=
        dst.transitions ++ src.transitions.map (fun l => l.map (shiftTrans offset)) }

/-- `fsm_union` (regex.c): copy the second machine's states in, add a fresh
start state with epsilon transitions to both old start states, merge the
accepting sets (second shifted), and make the fresh state the start. -/
def fsm_union (first second : Fsm) : Fsm :=
  let offset : Int := (first.transitions.length : Int)
  let f1 := fsm_copy_trans first second
  let p := fsm_add_state f1 false
  let f2 := p.1
  let newStart := p.2
  let f3 := fsm_add_trans f2 newStart
    (fsm_trans_create_single EPSILON EPSILON FSM_TRANS_POSITIVE first.start).2
  let f4 := fsm_add_trans f3 newStart
    (fsm_trans_create_single EPSILON EPSILON FSM_TRANS_POSITIVE (second.start + offset)).2
  let f5 := { f4 with accepting := f4.accepting ++ second.accepting.map (fun a => a + offset) }
  { f5 with start := newStart }

/-- A search hit (`regex_hit` in regex.h): match start index and length. -/
structure RegexHit where
  start : Int
  length : Int
deriving Repr, DecidableEq

/-- `regex_hit_create` (regex/datastructs.c). -/
def regex_hit_create (start length : Int) : RegexHit :=
  { start := start, length := length }

/-- Inner loop of `fsm_search` (regex/search.c): step the simulation over the
remaining text, remembering the last length at which the classification was
accepting or accepted, and stop on accepted, rejected, or end of text.  The
`res != FSM_SIM_REJECTED` conjunct of the C loop condition never fires
because the body already breaks on rejection. -/
def fsmSearchInner (f : Fsm) (curr : List Int) :
    List WChar → Int → Int → Int
  | [], _, lastLength => lastLength
  | c :: rest, length, lastLength =>
    let curr' := fsm_sim_nondet_step_curr f curr c
    let res := fsm_sim_nondet_state { f := f, curr := curr', input := rest }
    let length' := length + 1
    let lastLength' :=
      if res == FSM_SIM_ACCEPTING || res == FSM_SIM_ACCEPTED then length'
      else lastLength
    if res == FSM_SIM_ACCEPTED || res == FSM_SIM_REJECTED then lastLength'
    else fsmSearchInner f curr' rest length' lastLength'

/-- Outer loop of `fsm_search` (regex/search.c): for each start index, run the
inner simulation; on a hit record it and advance by the hit length (or one
position when overlapping); otherwise advance one position.  Each productive
iteration moves `start` forward by at least one (`fsmSearchInner` returns -1
or a positive length, see `fsmSearchInner_neg_or_pos`), so `text.length + 1`
iterations of fuel always reach the guard, matching the C loop. -/
def fsmSearchOuter (f : Fsm) (text : List WChar) (greedy overlap : Bool) :
    Nat → Nat → List RegexHit → List RegexHit
  | 0, _, results => results
  | fuel + 1, start, results =>
    if start < text.length then
      let ll := fsmSearchInner f (fsm_sim_nondet_epsilon_closure f f.start)
        (text.drop start) 0 (-1)
      if ll = -1 then
        fsmSearchOuter f text greedy overlap fuel (start + 1) results
      else
        let results' := results ++ [regex_hit_create (start : Int) ll]
        if greedy then results'
        else if overlap then fsmSearchOuter f text greedy overlap fuel (start + 1) results'
        else fsmSearchOuter f text greedy overlap fuel (start + ll.toNat) results'
    else results

/-- `fsm_search` (regex/search.c). -/
def fsm_search (f : Fsm) (text : List WChar) (greedy overlap : Bool) :
    List RegexHit :=
  fsmSearchOuter f text greedy overlap (text.length + 1) 0 []

/-- ASCII whitespace recognized by `iswspace` in the C locale (space, tab,
newline, vertical tab, form feed, carriage return). -/
def iswspace (c : WChar) : Bool :=
  c == 32 || c == 9 || c == 10 || c == 11 || c == 12 || c == 13

/-- Decimal digit test (`iswdigit`, C locale). -/
def iswdigit (c : WChar) : Bool :=
  decide (48 ≤ c) && decide (c ≤ 57)

/-- `split_lines` (fsm/io.c): cut the buffer at every newline (keeping empty
segments) and keep a trailing segment only when it is non-empty. -/
def split_linesw (source : List WChar) : List (List WChar) :=
  splitGo [] source
where
  splitGo (cur : List WChar) : List WChar → List (List WChar)
    | [] => if cur.isEmpty then [] else [cur]
    | c :: rest =>
      if c == 10 then cur :: splitGo [] rest
      else splitGo (cur ++ [c]) rest

/-- Maximal run of decimal digits, accumulating the value
(the digit loop of `%d` conversion). -/
def scanDigitRun (acc : Int) : List WChar → Int × List WChar
  | [] => (acc, [])
  | c :: rest =>
    if iswdigit c then scanDigitRun (acc * 10 + (c - 48)) rest
    else (acc, c :: rest)

/-- Unsigned part of a `%d` conversion: requires at least one digit. -/
def scanUnsigned : List WChar → Option (Int × List WChar)
  | [] => none
  | c :: rest =>
    if iswdigit c then some (scanDigitRun 0 (c :: rest)) else none

/-- `swscanf` `%d` conversion: skip whitespace, accept an optional sign, then
at least one decimal digit. -/
def scanInt (s : List WChar) : Option (Int × List WChar) :=
  let s1 := s.dropWhile iswspace
  match s1 with
  | 45 :: rest => (scanUnsigned rest).map (fun p => (-p.1, p.2))
  | 43 :: rest => scanUnsigned rest
  | _ => scanUnsigned s1

/-- Literal text directive of `swscanf`: each character must match exactly. -/
def scanLiteral : List WChar → List WChar → Option (List WChar)
  | [], s => some s
  | l :: lrest, c :: srest => if l == c then scanLiteral lrest srest else none
  | _ :: _, [] => none

/-- The characters of an ASCII string as wide characters. -/
def wstr (s : String) : List WChar :=
  s.toList.map (fun c => (c.toNat : Int))

/-- `swscanf(line, L"<key>%d", &v) == 1`: literal key match followed by an
integer conversion; used for the `start:` and `accept:` lines. -/
def scanKeyInt (key : List WChar) (line : List WChar) : Option Int :=
  (scanLiteral key line).bind (fun r => (scanInt r).map (fun p => p.1))

/-- The `accept:` line loop of `fsm_parseacceptlines` (fsm/io.c): consume
lines while they parse as `accept:%d`, recording the states; the first
non-matching line is pushed back. -/
def fsm_parseacceptlines : List (List WChar) → Fsm → List (List WChar) × Fsm
  | [], f => ([], f)
  | line :: rest, f =>
    match scanKeyInt (wstr "accept:") line with
    | some state => fsm_parseacceptlines rest { f with accepting := f.accepting ++ [state] }
    | none => (line :: rest, f)

/-- `swscanf(line, L"%d-%d:%lc%n", ...) == 3` of `fsm_parsetrans`: source
state, a literal hyphen, destination state, a literal colon, then any one
character as the type; returns the unconsumed remainder (the `%n` position). -/
def scanTransHeader (line : List WChar) :
    Option (Int × Int × WChar × List WChar) :=
  (scanInt line).bind (fun p1 =>
    match p1.2 with
    | 45 :: r2 =>
      (scanInt r2).bind (fun p2 =>
        match p2.2 with
        | 58 :: r4 =>
          match r4 with
          | tc :: r5 => some (p1.1, p2.1, tc, r5)
          | [] => none
        | _ => none)
    | _ => none)

/-- The range loop of `fsm_parsetrans`: `swscanf(subline, L"%lc-%lc%n")`
repeated while it converts both characters.  `%lc` matches any character
(no whitespace skip), the hyphen is a literal, and there is no escape
decoding in this revision of the reader. -/
def scanRanges : List WChar → List (WChar × WChar)
  | c1 :: d :: c2 :: rest =>
    if d == 45 then (c1, c2) :: scanRanges rest else []
  | _ => []

/-- `fsm_extend_states` (fsm/io.c): add empty states until both mentioned
state indices exist. -/
def fsmExtendStates (f : Fsm) (src dst : Int) : Fsm :=
  let mx := max src dst
  if (f.transitions.length : Int) < mx + 1 then
    { f with
        transitions :=
          f.transitions ++ List.replicate ((mx + 1).toNat - f.transitions.length) [] }
  else f

/-- `fsm_parsetrans` (fsm/io.c): parse the header; on failure return the
machine unchanged (the C code prints an error and returns).  Otherwise read
the ranges, build the transition, extend the state list, and append the
transition to the source state's list. -/
def fsm_parsetrans (line : List WChar) (f : Fsm) : Fsm :=
  match scanTransHeader line with
  | none => f
  | some (src, dst, tc, sub) =>
    let type := if tc == 43 then FSM_TRANS_POSITIVE else FSM_TRANS_NEGATIVE
    let t : FsmTrans := { type := type, ranges := scanRanges sub, dest := dst }
    fsm_add_trans (fsmExtendStates f src dst) src t

/-- `fsm_parsetranslines` (fsm/io.c): feed every remaining line to
`fsm_parsetrans`. -/
def fsm_parsetranslines (lines : List (List WChar)) (f : Fsm) : Fsm :=
  lines.foldl (fun g l => fsm_parsetrans l g) f

/-- `fsm_parselines` (fsm/io.c): fail on an empty line list; otherwise read an
optional `start:` line (defaulting the start state to 0 and pushing the line
back when the first line does not parse as one), then the `accept:` lines,
then the transitions. -/
def fsm_parselines (lines : List (List WChar)) : Option Fsm :=
  match lines with
  | [] => none
  | line :: rest =>
    let f0 : Fsm := { start := -1, transitions := [], accepting := [] }
    let p :=
      match scanKeyInt (wstr "start:") line with
      | some state => (rest, { f0 with start := state })
      | none => (line :: rest, { f0 with start := 0 })
    let q := fsm_parseacceptlines p.1 p.2
    some (fsm_parsetranslines q.1 q.2)

/-- `fsm_read` (fsm/io.c, current revision): split into lines and parse. -/
def fsm_read (source : List WChar) : Option Fsm :=
  fsm_parselines (split_linesw source)

/-- `fsm_print_char` (fsm/io.c): EPSILON is written as the two characters
`\e`; every other character is written verbatim. -/
def fsm_print_char (c : WChar) : List WChar :=
  if c == EPSILON then [92, 101] else [c]

/-- `fprintf` `%d` rendering of an integer in decimal. -/
def printInt (n : Int) : List WChar :=
  if n < 0 then
    45 :: (Nat.toDigits 10 (-n).toNat).map (fun c => (c.toNat : Int))
  else
    (Nat.toDigits 10 n.toNat).map (fun c => (c.toNat : Int))

/-- One transition line as `fsm_print` (fsm/io.c) sends it to `dest`:
`i-dest:` then `+` or `-`, then each range as `lo-hi`.  The C code prints the
space separating consecutive ranges to `stdout` instead of `dest`, so the
captured output has the ranges back to back; the range scan stops at the
first NUL in the start array, like `fsm_trans_check`. -/
def fsm_print_trans_line (i : Nat) (ft : FsmTrans) : List WChar :=
  printInt (i : Int) ++ [45] ++ printInt ft.dest ++ [58] ++
  [if ft.type == FSM_TRANS_POSITIVE then 43 else 45] ++
  ((ft.ranges.takeWhile (fun r => !(r.1 == 0))).map
    (fun r => fsm_print_char r.1 ++ [45] ++ fsm_print_char r.2)).flatten ++ [10]

/-- `fsm_print` (fsm/io.c, current revision), capturing exactly the bytes sent
to `dest`: the start line, one `accept:` line per accepting state, then each
state's transitions in state order. -/
def fsm_print (f : Fsm) : List WChar :=
  wstr "start:" ++ printInt f.start ++ [10] ++
  (f.accepting.map (fun a => wstr "accept:" ++ printInt a ++ [10])).flatten ++
  ((List.range f.transitions.length).map
    (fun i => ((f.transitions.getD i []).map (fsm_print_trans_line i)).flatten)).flatten

/-- Modelled from the spec: the grammar of a `start-line` in section 6.1,
`start-line := "start:" ws* nat` (the newline is consumed by line
splitting) -- the literal key, optional whitespace, then a natural number in
decimal digits. -/
def spec_is_start_line (line : List WChar) : Bool :=
  match scanLiteral (wstr "start:") line with
  | none => false
  | some r =>
    let r1 := r.dropWhile iswspace
    !r1.isEmpty && r1.all iswdigit

/-- A lexer (`smb_lex` in lex.h): the compiled pattern machines in load order
and, in parallel, the token values associated with them (the C `DATA` tokens
are modelled as integers). -/
structure SmbLex where
  patterns : List Fsm
  tokens : List Int
deriving Repr, DecidableEq

/-- Modelled from the spec: the explicit-character stepwise simulator step
`fsm_sim_nondet_step(fs, input)` used by lex.c lives in the libstephen
library, which is not under src/.  Per spec section 4.7 the step advances the
state set over one externally provided character, which is exactly the
transformation `fsm_sim_nondet_step_curr` performs. -/
def lex_sim_step (f : Fsm) (curr : List Int) (c : WChar) : List Int :=
  fsm_sim_nondet_step_curr f curr c

/-- Modelled from the spec: `fsm_sim_nondet_state(fs, next_char)` as called by
`lex_step` with a NUL lookahead.  Per spec section 4.7 the classification is
accepting or accepted exactly when the current state set meets the accepting
list (with a NUL lookahead the input counts as exhausted, turning Accepting
into Accepted; `lex_step` treats those two cases identically). -/
def lex_sim_accepting (f : Fsm) (curr : List Int) : Bool :=
  fsm_sim_nondet_non_empty_intersection f.accepting curr

/-- `lex_start` (lex.c): one simulation per pattern, each at the epsilon
closure of its machine's start state, with no pattern and no index recorded
yet. -/
def lex_start_sims (lex : SmbLex) : List (List Int) :=
  lex.patterns.map (fun f => fsm_sim_nondet_epsilon_closure f f.start)

/-- The per-pattern loop of `lex_step` (lex.c): step each simulation over the
character; when a simulation is in an accepting classification and no
simulation has yet been accepting at this index (`last_index < curr_idx`),
record the pattern and index.  Returns the new simulations and the updated
`last_pattern`, `last_index`. -/
def lex_step_loop (c : WChar) (currIdx : Int) :
    List (Fsm × List Int) → Int → Int → Int → List (List Int) × Int × Int
  | [], _, lastPattern, lastIndex => ([], lastPattern, lastIndex)
  | (f, cur) :: rest, i, lastPattern, lastIndex =>
    let cur' := lex_sim_step f cur c
    let p :=
      if lex_sim_accepting f cur' && decide (lastIndex < currIdx) then (i, currIdx)
      else (lastPattern, lastIndex)
    let r := lex_step_loop c currIdx rest (i + 1) p.1 p.2
    (cur' :: r.1, r.2)

/-- `lex_step` (lex.c): drive every pattern simulation one character forward,
update the recorded pattern and index, and report `finished` when no
simulation was accepting at this index. -/
def lex_step (lex : SmbLex) (sims : List (List Int))
    (lastPattern lastIndex : Int) (c : WChar) :
    List (List Int) × Int × Int × Bool :=
  let currIdx := lastIndex + 1
  let r := lex_step_loop c currIdx (lex.patterns.zip sims) 0 lastPattern lastIndex
  (r.1, r.2.1, r.2.2, decide (r.2.2 < currIdx))

/-- `lex_get_token` (lex.c): no token unless the simulation finished with some
pattern recorded. -/
def lex_get_token (lex : SmbLex) (finished : Bool) (lastPattern : Int) :
    Option Int :=
  if !finished || decide (lastPattern < 0) then none
  else some (lex.tokens.getD lastPattern.toNat 0)

/-- `lex_get_length` (lex.c): -1 while not finished, otherwise
`last_index + 1`. -/
def lex_get_length (finished : Bool) (lastIndex : Int) : Int :=
  if !finished then -1 else lastIndex + 1

/-- The `while (!sim->finished) lex_step(obj, sim, *input++)` loop of
`lex_yylex` (lex.c).  The characters fed are the input characters followed by
the terminating NUL; if the simulation is still not finished after consuming
the NUL, the C code reads past the end of the string (undefined behaviour),
which the embedding reports as `none`. -/
def lex_yylex_loop (lex : SmbLex) :
    List (List Int) → Int → Int → List WChar → Option (Int × Int)
  | sims, lastPattern, lastIndex, [] =>
    let r := lex_step lex sims lastPattern lastIndex 0
    if r.2.2.2 then some (r.2.1, r.2.2.1) else none
  | sims, lastPattern, lastIndex, c :: rest =>
    let r := lex_step lex sims lastPattern lastIndex c
    if r.2.2.2 then some (r.2.1, r.2.2.1)
    else lex_yylex_loop lex r.1 r.2.1 r.2.2.1 rest

/-- `lex_yylex` (lex.c): run the stepwise simulations until finished, then
return the token (`lex_get_token`) and length (`lex_get_length`).  After the
loop `finished` is always true. -/
def lex_yylex (lex : SmbLex) (input : List WChar) : Option (Option Int × Int) :=
  (lex_yylex_loop lex (lex_start_sims lex) (-1) (-1) input).map
    (fun r => (lex_get_token lex true r.1, lex_get_length true r.2))

/-- The state set of one pattern's simulation after consuming a prefix:
begin at the epsilon closure of the start state, then step per character. -/
def lexPatternCurr (f : Fsm) (pfx : List WChar) : List Int :=
  pfx.foldl (fsm_sim_nondet_step_curr f) (fsm_sim_nondet_epsilon_closure f f.start)

/-- Some pattern of the lexer is in an accepting classification after
consuming the given prefix. -/
def lexAnyAccepting (lex : SmbLex) (pfx : List WChar) : Bool :=
  lex.patterns.any (fun f => lex_sim_accepting f (lexPatternCurr f pfx))

/-- Pattern `i` of the lexer is in an accepting classification after
consuming the given prefix. -/
def lexPatAccepting (lex : SmbLex) (i : Nat) (pfx : List WChar) : Bool :=
  match lex.patterns[i]? with
  | some f => lex_sim_accepting f (lexPatternCurr f pfx)
  | none => false

/-- The index of the earliest-loaded pattern that is in an accepting
classification after consuming the given prefix (the pattern count when none
is). -/
def lexFirstAcc (lex : SmbLex) (pfx : List WChar) : Nat :=
  lex.patterns.findIdx (fun f => lex_sim_accepting f (lexPatternCurr f pfx))

/-- A single-character positive transition, as `fsm_create_single_char`
builds it. -/
def exChar (c : WChar) (d : Int) : FsmTrans :=
  (fsm_trans_create_single c c FSM_TRANS_POSITIVE d).2

/-- A dedicated epsilon transition,
`fsm_trans_create_single(EPSILON, EPSILON, FSM_TRANS_POSITIVE, d)`. -/
def exEps (d : Int) : FsmTrans :=
  (fsm_trans_create_single EPSILON EPSILON FSM_TRANS_POSITIVE d).2

/-- The machine `regex_parse(L"a")` builds: the empty-string machine
concatenated with the single-character machine for `a` (state 0 epsilon to 1,
1 reads `a` to 2, accepting 2). -/
def exMa : Fsm :=
  { start := 0, transitions := [[exEps 1], [exChar 97 2], []], accepting := [2] }

/-- The machine `regex_parse(L"b")` builds. -/
def exMb : Fsm :=
  { start := 0, transitions := [[exEps 1], [exChar 98 2], []], accepting := [2] }

/-- The machine `regex_parse(L"aaa")` builds: three single-character machines
concatenated behind the empty-string machine. -/
def exMaaa : Fsm :=
  { start := 0,
    transitions :=
      [[exEps 1], [exChar 97 2], [exEps 3], [exChar 97 4], [exEps 5],
       [exChar 97 6], []],
    accepting := [6] }

/-- A lexer holding the patterns for `a` and `aaa` (in that load order) with
token values 1 and 2. -/
def exLexGap : SmbLex := { patterns := [exMa, exMaaa], tokens := [1, 2] }

/-- A lexer with the single pattern for `a`, token value 7. -/
def exLexA : SmbLex := { patterns := [exMa], tokens := [7] }

/-- A two-state machine whose only edge is a dedicated epsilon transition
from the start state to the accepting state; it accepts exactly the empty
string. -/
def exEpsMachine : Fsm :=
  { start := 0, transitions := [[exEps 1], []], accepting := [1] }

/-- A machine with a single negative transition (ranges not containing
EPSILON) from state 0 to state 1. -/
def exNegTrans : FsmTrans :=
  { type := FSM_TRANS_NEGATIVE, ranges := [(97, 98)], dest := 1 }

/-- Machine holding `exNegTrans` out of its start state. -/
def exNegMachine : Fsm :=
  { start := 0, transitions := [[exNegTrans], []], accepting := [] }

/- ## Epsilon-closure correctness -/

theorem mem_epsPush (closure : List Int) (ts : List FsmTrans) :
    ∀ (queue : List Int) (x : Int),
      x ∈ epsPush closure ts queue ↔
        x ∈ queue ∨ ∃ ft ∈ ts, fsm_trans_check ft EPSILON = true ∧ ft.dest = x ∧
          x ∉ closure := by
  induction ts with
  | nil =>
    intro queue x
    simp [epsPush]
  | cons ft rest ih =>
    intro queue x
    by_cases hc : fsm_trans_check ft EPSILON = true
    · by_cases hq : ft.dest ∈ queue
      · rw [show epsPush closure (ft :: rest) queue = epsPush closure rest queue by
          simp [epsPush, hc, hq]]
        rw [ih]
        constructor
        · rintro (h | ⟨t, ht, h1, h2, h3⟩)
          · exact Or.inl h
          · exact Or.inr ⟨t, List.mem_cons_of_mem _ ht, h1, h2, h3⟩
        · rintro (h | ⟨t, ht, h1, h2, h3⟩)
          · exact Or.inl h
          · rcases List.mem_cons.mp ht with rfl | ht'
            · subst h2; exact Or.inl hq
            · exact Or.inr ⟨t, ht', h1, h2, h3⟩
      · by_cases hcl : ft.dest ∈ closure
        · rw [show epsPush closure (ft :: rest) queue = epsPush closure rest queue by
            simp [epsPush, hc, hq, hcl]]
          rw [ih]
          constructor
          · rintro (h | ⟨t, ht, h1, h2, h3⟩)
            · exact Or.inl h
            · exact Or.inr ⟨t, List.mem_cons_of_mem _ ht, h1, h2, h3⟩
          · rintro (h | ⟨t, ht, h1, h2, h3⟩)
            · exact Or.inl h
            · rcases List.mem_cons.mp ht with rfl | ht'
              · subst h2; exact absurd hcl h3
              · exact Or.inr ⟨t, ht', h1, h2, h3⟩
        · rw [show epsPush closure (ft :: rest) queue =
              epsPush closure rest (queue ++ [ft.dest]) by
            simp [epsPush, hc, hq, hcl]]
          rw [ih]
          constructor
          · rintro (h | ⟨t, ht, h1, h2, h3⟩)
            · rcases List.mem_append.mp h with h' | h'
              · exact Or.inl h'
              · simp only [List.mem_singleton] at h'
                subst h'
                exact Or.inr ⟨ft, List.mem_cons_self _ _, hc, rfl, hcl⟩
            · exact Or.inr ⟨t, List.mem_cons_of_mem _ ht, h1, h2, h3⟩
          · rintro (h | ⟨t, ht, h1, h2, h3⟩)
            · exact Or.inl (List.mem_append_left _ h)
            · rcases List.mem_cons.mp ht with rfl | ht'
              · subst h2
                exact Or.inl (List.mem_append_right _ (List.mem_singleton.mpr rfl))
              · exact Or.inr ⟨t, ht', h1, h2, h3⟩
    · rw [show epsPush closure (ft :: rest) queue = epsPush closure rest queue by
        simp [epsPush, hc]]
      rw [ih]
      constructor
      · rintro (h | ⟨t, ht, h1, h2, h3⟩)
        · exact Or.inl h
        · exact Or.inr ⟨t, List.mem_cons_of_mem _ ht, h1, h2, h3⟩
      · rintro (h | ⟨t, ht, h1, h2, h3⟩)
        · exact Or.inl h
        · rcases List.mem_cons.mp ht with rfl | ht'
          · exact absurd h1 hc
          · exact Or.inr ⟨t, ht', h1, h2, h3⟩

theorem epsPush_nodup (closure : List Int) (ts : List FsmTrans) :
    ∀ (queue : List Int), queue.Nodup → (∀ x ∈ queue, x ∉ closure) →
      (epsPush closure ts queue).Nodup ∧
        (∀ x ∈ epsPush closure ts queue, x ∉ closure) := by
  induction ts with
  | nil => intro queue h1 h2; simpa [epsPush] using ⟨h1, h2⟩
  | cons ft rest ih =>
    intro queue h1 h2
    by_cases hcond : (fsm_trans_check ft EPSILON && !(queue.contains ft.dest)
        && !(closure.contains ft.dest)) = true
    · rw [show epsPush closure (ft :: rest) queue =
          epsPush closure rest (queue ++ [ft.dest]) by
        simp only [epsPush]
        rw [if_pos hcond]]
      simp only [Bool.and_eq_true, Bool.not_eq_true'] at hcond
      obtain ⟨⟨hc, hq⟩, hcl⟩ := hcond
      replace hq : ft.dest ∉ queue := by simpa using hq
      replace hcl : ft.dest ∉ closure := by simpa using hcl
      apply ih
      · exact List.Nodup.append h1 (List.nodup_singleton _)
          (by
            intro a ha hb
            simp only [List.mem_singleton] at hb
            subst hb
            exact hq ha)
      · intro x hx
        rcases List.mem_append.mp hx with h' | h'
        · exact h2 x h'
        · simp only [List.mem_singleton] at h'
          exact h' ▸ hcl
    · rw [show epsPush closure (ft :: rest) queue = epsPush closure rest queue by
        simp only [epsPush]
        rw [if_neg hcond]]
      exact ih queue h1 h2

theorem countP_strict_decrease (p q : Int → Bool) (d : Int)
    (himp : ∀ x, q x = true → p x = true) (hpd : p d = true) (hqd : q d = false) :
    ∀ l : List Int, d ∈ l → l.countP q < l.countP p := by
  intro l
  induction l with
  | nil => intro h; cases h
  | cons a rest ih =>
    intro hd
    have hmono : rest.countP q ≤ rest.countP p :=
      List.countP_mono_left (fun x _ => himp x)
    rw [List.countP_cons, List.countP_cons]
    rcases List.mem_cons.mp hd with rfl | hd'
    · have h1 : (if q d = true then 1 else 0) = 0 := by simp [hqd]
      have h2 : (if p d = true then 1 else 0) = 1 := by simp [hpd]
      rw [h1, h2]
      omega
    · have hlt := ih hd'
      have h3 : (if q a = true then 1 else 0) ≤ (if p a = true then 1 else 0) := by
        by_cases hqa : q a = true
        · simp [hqa, himp a hqa]
        · simp [hqa]
      omega

theorem epsClosureLoop_spec (f : Fsm) (V : List Int)
    (hV : ∀ p ft, ft ∈ fsm_edges f p → ft.dest ∈ V) :
    ∀ (fuel : Nat) (queue closure : List Int),
      queue.Nodup →
      (∀ x ∈ queue, x ∉ closure) →
      (∀ x ∈ queue, x ∈ V) →
      V.countP (fun v => !(closure.contains v)) ≤ fuel →
      (∀ c ∈ closure, ∀ d, EpsStep f c d → d ∈ closure ∨ d ∈ queue) →
      (∀ x ∈ queue, x ∈ epsClosureLoop f fuel queue closure) ∧
      (∀ x ∈ closure, x ∈ epsClosureLoop f fuel queue closure) ∧
      (∀ c ∈ epsClosureLoop f fuel queue closure, ∀ d, EpsStep f c d →
        d ∈ epsClosureLoop f fuel queue closure) := by
  intro fuel
  induction fuel with
  | zero =>
    intro queue closure hnd hdisj hqV hcount hinv
    have hVsub : ∀ v ∈ V, v ∈ closure := by
      intro v hv
      by_contra hvc
      have : 0 < V.countP (fun v => !(closure.contains v)) := by
        rw [List.countP_pos_iff]
        refine ⟨v, hv, ?_⟩
        simpa using hvc
      omega
    have hqe : ∀ x ∈ queue, False := by
      intro x hx
      exact hdisj x hx (hVsub x (hqV x hx))
    refine ⟨fun x hx => absurd hx (fun h => hqe x h), ?_, ?_⟩
    · intro x hx; simpa [epsClosureLoop] using hx
    · intro c hc d hstep
      simp only [epsClosureLoop] at hc ⊢
      rcases hinv c hc d hstep with h | h
      · exact h
      · exact absurd h (fun h' => hqe d h')
  | succ fuel ih =>
    intro queue closure hnd hdisj hqV hcount hinv
    match queue with
    | [] =>
      refine ⟨by simp, ?_, ?_⟩
      · intro x hx; simpa [epsClosureLoop] using hx
      · intro c hc d hstep
        simp only [epsClosureLoop] at hc ⊢
        rcases hinv c hc d hstep with h | h
        · exact h
        · cases h
    | d :: rest =>
      have hrun : epsClosureLoop f (fuel + 1) (d :: rest) closure =
          epsClosureLoop f fuel (epsPush (closure ++ [d]) (fsm_edges f d) rest)
            (closure ++ [d]) := rfl
      set closure' := closure ++ [d] with hc'
      set queue' := epsPush closure' (fsm_edges f d) rest with hq'
      have hdn : d ∉ closure := hdisj d (List.mem_cons_self _ _)
      have hrnd : rest.Nodup := (List.nodup_cons.mp hnd).2
      have hdrest : d ∉ rest := (List.nodup_cons.mp hnd).1
      have hrdisj : ∀ x ∈ rest, x ∉ closure' := by
        intro x hx
        intro hmem
        rcases List.mem_append.mp hmem with h | h
        · exact hdisj x (List.mem_cons_of_mem _ hx) h
        · simp only [List.mem_singleton] at h
          exact hdrest (h ▸ hx)
      obtain ⟨hqnd', hqdisj'⟩ := epsPush_nodup closure' (fsm_edges f d) rest hrnd hrdisj
      have hqV' : ∀ x ∈ queue', x ∈ V := by
        intro x hx
        rcases (mem_epsPush closure' (fsm_edges f d) rest x).mp hx with h | ⟨t, ht, _, h2, _⟩
        · exact hqV x (List.mem_cons_of_mem _ h)
        · exact h2 ▸ hV d t ht
      have hcount' : V.countP (fun v => !(closure'.contains v)) ≤ fuel := by
        have himp : ∀ x : Int, (fun v => !(closure'.contains v)) x = true →
            (fun v => !(closure.contains v)) x = true := by
          intro x hx
          have hx' : x ∉ closure' := by simpa using hx
          have hx'' : x ∉ closure := fun hmem => hx' (List.mem_append_left _ hmem)
          simpa using hx''
        have hpd : (fun v => !(closure.contains v)) d = true := by simpa using hdn
        have hqd : (fun v => !(closure'.contains v)) d = false := by
          have hmem : d ∈ closure' := List.mem_append_right _ (List.mem_singleton.mpr rfl)
          simpa using hmem
        have hlt := countP_strict_decrease _ _ d himp hpd hqd V
          (hqV d (List.mem_cons_self _ _))
        omega
      have hinv' : ∀ c ∈ closure', ∀ e, EpsStep f c e → e ∈ closure' ∨ e ∈ queue' := by
        intro c hc e hstep
        rcases List.mem_append.mp hc with hcc | hcd
        · rcases hinv c hcc e hstep with h | h
          · exact Or.inl (List.mem_append_left _ h)
          · rcases List.mem_cons.mp h with rfl | h'
            · exact Or.inl (List.mem_append_right _ (List.mem_singleton.mpr rfl))
            · exact Or.inr ((mem_epsPush _ _ _ _).mpr (Or.inl h'))
        · simp only [List.mem_singleton] at hcd
          subst hcd
          obtain ⟨t, ht, h1, h2⟩ := hstep
          by_cases hecl : e ∈ closure'
          · exact Or.inl hecl
          · exact Or.inr ((mem_epsPush _ _ _ _).mpr (Or.inr ⟨t, ht, h1, h2, hecl⟩))
      obtain ⟨ih1, ih2, ih3⟩ := ih queue' closure' hqnd' hqdisj' hqV' hcount' hinv'
      rw [hrun]
      refine ⟨?_, ?_, ih3⟩
      · intro x hx
        rcases List.mem_cons.mp hx with rfl | h'
        · exact ih2 x (List.mem_append_right _ (List.mem_singleton.mpr rfl))
        · exact ih1 x ((mem_epsPush _ _ _ _).mpr (Or.inl h'))
      · intro x hx
        exact ih2 x (List.mem_append_left _ hx)

theorem epsClosureLoop_sound (f : Fsm) (s : Int) :
    ∀ (fuel : Nat) (queue closure : List Int),
      (∀ x ∈ queue, EpsReach f s x) → (∀ x ∈ closure, EpsReach f s x) →
      ∀ x ∈ epsClosureLoop f fuel queue closure, EpsReach f s x := by
  intro fuel
  induction fuel with
  | zero =>
    intro queue closure _ hcl x hx
    simp only [epsClosureLoop] at hx
    exact hcl x hx
  | succ fuel ih =>
    intro queue closure hq hcl
    match queue with
    | [] =>
      intro x hx
      simp only [epsClosureLoop] at hx
      exact hcl x hx
    | d :: rest =>
      intro x hx
      have hd : EpsReach f s d := hq d (List.mem_cons_self _ _)
      refine ih (epsPush (closure ++ [d]) (fsm_edges f d) rest) (closure ++ [d]) ?_ ?_ x hx
      · intro y hy
        rcases (mem_epsPush _ _ _ _).mp hy with h | ⟨t, ht, h1, h2, _⟩
        · exact hq y (List.mem_cons_of_mem _ h)
        · exact Relation.ReflTransGen.tail hd ⟨t, ht, h1, h2⟩
      · intro y hy
        rcases List.mem_append.mp hy with h | h
        · exact hcl y h
        · simp only [List.mem_singleton] at h
          exact h ▸ hd

theorem dest_mem_all_dests (f : Fsm) (p : Int) (ft : FsmTrans)
    (h : ft ∈ fsm_edges f p) : ft.dest ∈ fsm_all_dests f := by
  simp only [fsm_edges] at h
  split at h
  · by_cases hin : p.toNat < f.transitions.length
    · have hl : f.transitions.getD p.toNat [] ∈ f.transitions := by
        rw [List.getD_eq_getElem?_getD, List.getElem?_eq_getElem hin]
        exact List.getElem_mem _
      simp only [fsm_all_dests, List.mem_flatten]
      refine ⟨(f.transitions.getD p.toNat []).map (fun t => t.dest), ?_, ?_⟩
      · exact List.mem_map_of_mem _ hl
      · exact List.mem_map_of_mem _ h
    · rw [List.getD_eq_getElem?_getD, List.getElem?_eq_none (by omega)] at h
      cases h
  · cases h

/-- BFS correctness of the epsilon closure: a state is in the list computed by
`fsm_sim_nondet_epsilon_closure` exactly when it is reachable from the given
state by zero or more epsilon moves. -/
theorem mem_epsilon_closure (f : Fsm) (s x : Int) :
    x ∈ fsm_sim_nondet_epsilon_closure f s ↔ EpsReach f s x := by
  constructor
  · intro hx
    exact epsClosureLoop_sound f s _ [s] []
      (by
        intro y hy
        simp only [List.mem_singleton] at hy
        exact hy ▸ Relation.ReflTransGen.refl)
      (by intro y hy; cases hy) x hx
  · intro hreach
    have hspec := epsClosureLoop_spec f ((s :: fsm_all_dests f).dedup)
      (by
        intro p ft h
        exact List.mem_dedup.mpr (List.mem_cons_of_mem _ (dest_mem_all_dests f p ft h)))
      (closureFuel f s) [s] []
      (List.nodup_singleton _)
      (by intro y _ hy; cases hy)
      (by
        intro y hy
        simp only [List.mem_singleton] at hy
        exact List.mem_dedup.mpr (hy ▸ List.mem_cons_self _ _))
      (by
        simp only [closureFuel]
        have : ∀ v : Int, (!(([] : List Int).contains v)) = true := by intro v; rfl
        rw [List.countP_eq_length_filter, List.filter_eq_self.mpr (fun a _ => this a)])
      (by intro c hc; cases hc)
    obtain ⟨h1, _, h3⟩ := hspec
    have hs : s ∈ fsm_sim_nondet_epsilon_closure f s :=
      h1 s (List.mem_singleton.mpr rfl)
    unfold fsm_sim_nondet_epsilon_closure
    induction hreach with
    | refl => exact hs
    | tail _ hstep ih => exact h3 _ ih _ hstep

/- ## Step-set and driver characterization -/

theorem list_contains_iff (l : List Int) (x : Int) :
    l.contains x = true ↔ x ∈ l := by
  simp

theorem mem_union_and_delete (second : List Int) :
    ∀ (first : List Int) (x : Int),
      x ∈ fsm_sim_nondet_union_and_delete first second ↔ x ∈ first ∨ x ∈ second := by
  induction second with
  | nil => intro first x; simp [fsm_sim_nondet_union_and_delete]
  | cons d rest ih =>
    intro first x
    show x ∈ fsm_sim_nondet_union_and_delete
        (if first.contains d then first else first ++ [d]) rest ↔ _
    rw [ih]
    by_cases hd : d ∈ first
    · rw [if_pos (list_contains_iff first d |>.mpr hd)]
      constructor
      · rintro (h | h)
        · exact Or.inl h
        · exact Or.inr (List.mem_cons_of_mem _ h)
      · rintro (h | h)
        · exact Or.inl h
        · rcases List.mem_cons.mp h with rfl | h'
          · exact Or.inl hd
          · exact Or.inr h'
    · rw [if_neg (fun hcon => hd (list_contains_iff first d |>.mp hcon))]
      constructor
      · rintro (h | h)
        · rcases List.mem_append.mp h with h' | h'
          · exact Or.inl h'
          · simp only [List.mem_singleton] at h'
            exact Or.inr (h' ▸ List.mem_cons_self _ _)
        · exact Or.inr (List.mem_cons_of_mem _ h)
      · rintro (h | h)
        · exact Or.inl (List.mem_append_left _ h)
        · rcases List.mem_cons.mp h with rfl | h'
          · exact Or.inl (List.mem_append_right _ (List.mem_singleton.mpr rfl))
          · exact Or.inr h'

theorem mem_moves_inner (c : WChar) (ts : List FsmTrans) :
    ∀ (acc : List Int) (x : Int),
      x ∈ ts.foldl
          (fun next t =>
            if fsm_trans_check t c && !(next.contains t.dest) then next ++ [t.dest]
            else next) acc ↔
        x ∈ acc ∨ ∃ t ∈ ts, fsm_trans_check t c = true ∧ t.dest = x := by
  induction ts with
  | nil => intro acc x; simp
  | cons t rest ih =>
    intro acc x
    rw [List.foldl_cons, ih]
    by_cases hc : fsm_trans_check t c = true
    · by_cases hm : t.dest ∈ acc
      · have hcd : (fsm_trans_check t c && !(acc.contains t.dest)) = false := by
          simp [hm]
        rw [show (if fsm_trans_check t c && !(acc.contains t.dest)
            then acc ++ [t.dest] else acc) = acc by rw [hcd]; simp]
        constructor
        · rintro (h | ⟨u, hu, h1, h2⟩)
          · exact Or.inl h
          · exact Or.inr ⟨u, List.mem_cons_of_mem _ hu, h1, h2⟩
        · rintro (h | ⟨u, hu, h1, h2⟩)
          · exact Or.inl h
          · rcases List.mem_cons.mp hu with rfl | hu'
            · exact Or.inl (h2 ▸ hm)
            · exact Or.inr ⟨u, hu', h1, h2⟩
      · have hcd : (fsm_trans_check t c && !(acc.contains t.dest)) = true := by
          simp [hc, hm]
        rw [show (if fsm_trans_check t c && !(acc.contains t.dest)
            then acc ++ [t.dest] else acc) = acc ++ [t.dest] by rw [hcd]; simp]
        constructor
        · rintro (h | ⟨u, hu, h1, h2⟩)
          · rcases List.mem_append.mp h with h' | h'
            · exact Or.inl h'
            · simp only [List.mem_singleton] at h'
              exact Or.inr ⟨t, List.mem_cons_self _ _, hc, h'.symm⟩
          · exact Or.inr ⟨u, List.mem_cons_of_mem _ hu, h1, h2⟩
        · rintro (h | ⟨u, hu, h1, h2⟩)
          · exact Or.inl (List.mem_append_left _ h)
          · rcases List.mem_cons.mp hu with rfl | hu'
            · exact Or.inl (List.mem_append_right _ (by simp [h2]))
            · exact Or.inr ⟨u, hu', h1, h2⟩
    · have hcd : (fsm_trans_check t c && !(acc.contains t.dest)) = false := by
        simp [hc]
      rw [show (if fsm_trans_check t c && !(acc.contains t.dest)
          then acc ++ [t.dest] else acc) = acc by rw [hcd]; simp]
      constructor
      · rintro (h | ⟨u, hu, h1, h2⟩)
        · exact Or.inl h
        · exact Or.inr ⟨u, List.mem_cons_of_mem _ hu, h1, h2⟩
      · rintro (h | ⟨u, hu, h1, h2⟩)
        · exact Or.inl h
        · rcases List.mem_cons.mp hu with rfl | hu'
          · exact absurd h1 hc
          · exact Or.inr ⟨u, hu', h1, h2⟩

theorem mem_moves_outer (f : Fsm) (c : WChar) (curr : List Int) :
    ∀ (acc : List Int) (x : Int),
      x ∈ curr.foldl
          (fun next s =>
            (fsm_edges f s).foldl
              (fun next t =>
                if fsm_trans_check t c && !(next.contains t.dest) then next ++ [t.dest]
                else next) next) acc ↔
        x ∈ acc ∨ ∃ s ∈ curr, ∃ t ∈ fsm_edges f s,
          fsm_trans_check t c = true ∧ t.dest = x := by
  induction curr with
  | nil => intro acc x; simp
  | cons s rest ih =>
    intro acc x
    rw [List.foldl_cons, ih]
    rw [mem_moves_inner c]
    constructor
    · rintro ((h | ⟨t, ht, h1, h2⟩) | ⟨s', hs', t, ht, h1, h2⟩)
      · exact Or.inl h
      · exact Or.inr ⟨s, List.mem_cons_self _ _, t, ht, h1, h2⟩
      · exact Or.inr ⟨s', List.mem_cons_of_mem _ hs', t, ht, h1, h2⟩
    · rintro (h | ⟨s', hs', t, ht, h1, h2⟩)
      · exact Or.inl (Or.inl h)
      · rcases List.mem_cons.mp hs' with rfl | hs''
        · exact Or.inl (Or.inr ⟨t, ht, h1, h2⟩)
        · exact Or.inr ⟨s', hs'', t, ht, h1, h2⟩

theorem mem_fsmMoves (f : Fsm) (curr : List Int) (c : WChar) (x : Int) :
    x ∈ fsmMoves f curr c ↔
      ∃ s ∈ curr, ∃ t ∈ fsm_edges f s, fsm_trans_check t c = true ∧ t.dest = x := by
  rw [fsmMoves, mem_moves_outer]
  simp

theorem mem_step_fold (f : Fsm) (next : List Int) :
    ∀ (acc : List Int) (x : Int),
      x ∈ next.foldl
          (fun acc s =>
            fsm_sim_nondet_union_and_delete acc (fsm_sim_nondet_epsilon_closure f s))
          acc ↔
        x ∈ acc ∨ ∃ m ∈ next, x ∈ fsm_sim_nondet_epsilon_closure f m := by
  induction next with
  | nil => intro acc x; simp
  | cons m rest ih =>
    intro acc x
    rw [List.foldl_cons, ih, mem_union_and_delete]
    constructor
    · rintro ((h | h) | ⟨m', hm', h⟩)
      · exact Or.inl h
      · exact Or.inr ⟨m, List.mem_cons_self _ _, h⟩
      · exact Or.inr ⟨m', List.mem_cons_of_mem _ hm', h⟩
    · rintro (h | ⟨m', hm', h⟩)
      · exact Or.inl (Or.inl h)
      · rcases List.mem_cons.mp hm' with rfl | hm''
        · exact Or.inl (Or.inr h)
        · exact Or.inr ⟨m', hm'', h⟩

/-- Membership in the state set after one simulation step: a state is there
exactly when some current state has a transition accepting `c` whose
destination epsilon-reaches it. -/
theorem mem_step_curr (f : Fsm) (curr : List Int) (c : WChar) (x : Int) :
    x ∈ fsm_sim_nondet_step_curr f curr c ↔
      ∃ s ∈ curr, ∃ t ∈ fsm_edges f s, fsm_trans_check t c = true ∧
        EpsReach f t.dest x := by
  rw [fsm_sim_nondet_step_curr]
  rw [mem_step_fold]
  constructor
  · rintro (h | ⟨m, hm, h⟩)
    · obtain ⟨s, hs, t, ht, h1, h2⟩ := (mem_fsmMoves f curr c x).mp h
      exact ⟨s, hs, t, ht, h1, h2 ▸ Relation.ReflTransGen.refl⟩
    · obtain ⟨s, hs, t, ht, h1, h2⟩ := (mem_fsmMoves f curr c m).mp hm
      exact ⟨s, hs, t, ht, h1, h2 ▸ (mem_epsilon_closure f m x).mp h⟩
  · rintro ⟨s, hs, t, ht, h1, h2⟩
    refine Or.inr ⟨t.dest, ?_, (mem_epsilon_closure f t.dest x).mpr h2⟩
    exact (mem_fsmMoves f curr c t.dest).mpr ⟨s, hs, t, ht, h1, rfl⟩

theorem step_curr_nil (f : Fsm) (c : WChar) :
    fsm_sim_nondet_step_curr f [] c = [] := rfl

theorem intersection_nil (first : List Int) :
    fsm_sim_nondet_non_empty_intersection first [] = false := by
  simp [fsm_sim_nondet_non_empty_intersection]

theorem mem_intersection (first second : List Int) :
    fsm_sim_nondet_non_empty_intersection first second = true ↔
      ∃ x ∈ first, x ∈ second := by
  simp [fsm_sim_nondet_non_empty_intersection]

/-- The whole-string driver in terms of the step transformation: it accepts
exactly when the state set obtained by folding the step function over the
input meets the accepting list. -/
theorem fsm_sim_nondet_run_iff (f : Fsm) :
    ∀ (input : List WChar) (curr : List Int),
      fsm_sim_nondet_run f curr input =
        fsm_sim_nondet_non_empty_intersection f.accepting
          (input.foldl (fsm_sim_nondet_step_curr f) curr) := by
  intro input
  induction input with
  | nil =>
    intro curr
    rw [fsm_sim_nondet_run]
    by_cases h : curr.isEmpty
    · rw [if_pos h, List.foldl_nil]
      have : curr = [] := List.isEmpty_iff.mp h
      rw [this, intersection_nil]
    · rw [if_neg h, List.foldl_nil]
  | cons c rest ih =>
    intro curr
    rw [fsm_sim_nondet_run]
    by_cases h : curr.isEmpty
    · rw [if_pos h]
      have hc : curr = [] := List.isEmpty_iff.mp h
      subst hc
      rw [List.foldl_cons, step_curr_nil]
      have : ∀ l : List WChar, l.foldl (fsm_sim_nondet_step_curr f) [] = [] := by
        intro l
        induction l with
        | nil => rfl
        | cons a r ihr => rw [List.foldl_cons, step_curr_nil]; exact ihr
      rw [this, intersection_nil]
    · rw [if_neg h, ih, List.foldl_cons]

/- ## Claim C4: fsm_sim_nondet_begin -/

/-- C4: for every NFA `f` and every input, `fsm_sim_nondet_begin f input`
produces a simulation whose current state set contains exactly the states of
the epsilon closure of `f`'s start state (the states epsilon-reachable from
it), with the input retained unconsumed and the machine attached. -/
theorem fsm_sim_nondet_begin_spec (f : Fsm) (input : List WChar) :
    (∀ x : Int, x ∈ (fsm_sim_nondet_begin f input).curr ↔ EpsReach f f.start x) ∧
    (fsm_sim_nondet_begin f input).input = input ∧
    (fsm_sim_nondet_begin f input).f = f :=
  ⟨fun x => mem_epsilon_closure f f.start x, rfl, rfl⟩

/- ## Claim C9: fsm_sim_nondet_state is a pure query -/

/-- C9: `fsm_sim_nondet_state` is a pure query: the simulation it returns is
the one it received (machine, current state set, and input cursor unchanged),
and calling it again on that simulation yields the same classification. -/
theorem fsm_sim_nondet_state_pure (s : FsmSim) :
    (fsm_sim_nondet_state_impl s).2 = s ∧
    fsm_sim_nondet_state ((fsm_sim_nondet_state_impl s).2) = fsm_sim_nondet_state s :=
  ⟨rfl, rfl⟩

/- ## Claim C8: negative transitions accept EPSILON -/

/-- C8: a negative transition none of whose ranges contains the EPSILON
sentinel accepts EPSILON under `fsm_trans_check`; consequently, if such a
transition leaves state `p`, the epsilon-closure computation reaches its
destination from `p` without consuming input. -/
theorem fsm_trans_check_negative_epsilon (f : Fsm) (p : Int) (t : FsmTrans)
    (htype : t.type = FSM_TRANS_NEGATIVE)
    (hranges : ∀ r ∈ t.ranges, ¬(r.1 ≤ EPSILON ∧ EPSILON ≤ r.2)) :
    fsm_trans_check t EPSILON = true ∧
      (t ∈ fsm_edges f p → t.dest ∈ fsm_sim_nondet_epsilon_closure f p) := by
  have hcheck : fsm_trans_check t EPSILON = true := by
    rw [fsm_trans_check]
    have hany : (t.ranges.takeWhile (fun r => !(r.1 == 0) && !(r.2 == 0))).any
        (fun r => decide (r.1 ≤ EPSILON) && decide (EPSILON ≤ r.2)) = false := by
      rw [List.any_eq_false]
      intro r hr
      have hr' : r ∈ t.ranges := (List.takeWhile_sublist _).subset hr
      have := hranges r hr'
      simp only [Bool.and_eq_true, decide_eq_true_eq]
      exact fun h => this h
    simp only [hany]
    rw [if_neg (by simp)]
    rw [htype]
    rfl
  refine ⟨hcheck, fun hmem => ?_⟩
  exact (mem_epsilon_closure f p t.dest).mpr
    (Relation.ReflTransGen.single ⟨t, hmem, hcheck, rfl⟩)

/-- Witness for C8 at a concrete machine: the negative transition with range
`(97, 98)` out of state 0 accepts EPSILON and its destination 1 is in the
epsilon closure of state 0. -/
theorem fsm_trans_check_negative_epsilon_witness :
    exNegTrans.type = FSM_TRANS_NEGATIVE ∧
    (∀ r ∈ exNegTrans.ranges, ¬(r.1 ≤ EPSILON ∧ EPSILON ≤ r.2)) ∧
    fsm_trans_check exNegTrans EPSILON = true ∧
    (1 : Int) ∈ fsm_sim_nondet_epsilon_closure exNegMachine 0 := by
  have h := fsm_trans_check_negative_epsilon exNegMachine 0 exNegTrans
    (by decide) (by decide)
  exact ⟨by decide, by decide, h.1, h.2 (by decide)⟩

/- ## Claim C6: fsm_trans_create_single with an invalid range -/

/-- C6 counterexample: with `high < low` (here `low = 98`, `high = 97`),
`fsm_trans_create_single` does not fail to produce an edge: it returns the
single-range transition holding the invalid range, merely flagging the
diagnostic.  This refutes the claim that no edge is produced. -/
theorem fsm_trans_create_single_invalid_produces_edge :
    (fsm_trans_create_single 98 97 FSM_TRANS_POSITIVE 5).2 =
      { type := FSM_TRANS_POSITIVE, ranges := [(98, 97)], dest := 5 } ∧
    (fsm_trans_create_single 98 97 FSM_TRANS_POSITIVE 5).1 = true := by
  constructor <;> rfl

/-- C6 amended: for `high < low`, `fsm_trans_create_single` reports the
InvalidRange diagnostic (first component true) but still constructs and
returns the edge carrying the requested range and destination. -/
theorem fsm_trans_create_single_invalid_range (low high : WChar) (type dest : Int)
    (h : high < low) :
    (fsm_trans_create_single low high type dest).1 = true ∧
    (fsm_trans_create_single low high type dest).2.ranges = [(low, high)] ∧
    (fsm_trans_create_single low high type dest).2.dest = dest :=
  ⟨by simp [fsm_trans_create_single, h], rfl, rfl⟩

/-- Witness for the amended C6 at `low = 98`, `high = 97`. -/
theorem fsm_trans_create_single_invalid_range_witness :
    (97 : WChar) < 98 ∧
    (fsm_trans_create_single 98 97 FSM_TRANS_POSITIVE 5).1 = true ∧
    (fsm_trans_create_single 98 97 FSM_TRANS_POSITIVE 5).2.ranges = [(98, 97)] ∧
    (fsm_trans_create_single 98 97 FSM_TRANS_POSITIVE 5).2.dest = 5 :=
  ⟨by decide, fsm_trans_create_single_invalid_range 98 97 FSM_TRANS_POSITIVE 5 (by decide)⟩

/- ## Claim C10: fsm_search hits have positive length -/

theorem fsmSearchInner_result (f : Fsm) :
    ∀ (rem : List WChar) (curr : List Int) (len lastLen : Int),
      fsmSearchInner f curr rem len lastLen = lastLen ∨
        len < fsmSearchInner f curr rem len lastLen := by
  intro rem
  induction rem with
  | nil => intro curr len lastLen; exact Or.inl rfl
  | cons c rest ih =>
    intro curr len lastLen
    rw [fsmSearchInner]
    set curr' := fsm_sim_nondet_step_curr f curr c with hc'
    set res := fsm_sim_nondet_state { f := f, curr := curr', input := rest } with hr'
    by_cases hacc : (res == FSM_SIM_ACCEPTING || res == FSM_SIM_ACCEPTED) = true
    · rw [if_pos hacc]
      by_cases hstop : (res == FSM_SIM_ACCEPTED || res == FSM_SIM_REJECTED) = true
      · rw [if_pos hstop]
        exact Or.inr (by omega)
      · rw [if_neg hstop]
        rcases ih curr' (len + 1) (len + 1) with h | h
        · exact Or.inr (by omega)
        · exact Or.inr (by omega)
    · rw [if_neg hacc]
      by_cases hstop : (res == FSM_SIM_ACCEPTED || res == FSM_SIM_REJECTED) = true
      · rw [if_pos hstop]
        exact Or.inl rfl
      · rw [if_neg hstop]
        rcases ih curr' (len + 1) lastLen with h | h
        · exact Or.inl h
        · exact Or.inr (by omega)

theorem fsmSearchOuter_length_pos (f : Fsm) (text : List WChar)
    (greedy overlap : Bool) :
    ∀ (fuel : Nat) (start : Nat) (results : List RegexHit),
      (∀ h ∈ results, 1 ≤ h.length) →
      ∀ h ∈ fsmSearchOuter f text greedy overlap fuel start results, 1 ≤ h.length := by
  intro fuel
  induction fuel with
  | zero => intro start results hres h hh; exact hres h hh
  | succ fuel ih =>
    intro start results hres h hh
    rw [fsmSearchOuter] at hh
    by_cases hlt : start < text.length
    · rw [if_pos hlt] at hh
      set ll := fsmSearchInner f (fsm_sim_nondet_epsilon_closure f f.start)
        (text.drop start) 0 (-1) with hll
      by_cases hmiss : ll = -1
      · rw [if_pos hmiss] at hh
        exact ih (start + 1) results hres h hh
      · rw [if_neg hmiss] at hh
        have hpos : 1 ≤ ll := by
          rcases fsmSearchInner_result f (text.drop start)
            (fsm_sim_nondet_epsilon_closure f f.start) 0 (-1) with hr | hr
          · rw [← hll] at hr
            exact absurd hr hmiss
          · rw [← hll] at hr
            omega
        have hres' : ∀ h ∈ results ++ [regex_hit_create (start : Int) ll],
            1 ≤ h.length := by
          intro h' hh'
          rcases List.mem_append.mp hh' with h1 | h1
          · exact hres h' h1
          · simp only [List.mem_singleton] at h1
            subst h1
            exact hpos
        by_cases hg : greedy = true
        · rw [if_pos hg] at hh
          exact hres' h hh
        · rw [if_neg hg] at hh
          by_cases ho : overlap = true
          · rw [if_pos ho] at hh
            exact ih (start + 1) _ hres' h hh
          · rw [if_neg ho] at hh
            exact ih (start + ll.toNat) _ hres' h hh
    · rw [if_neg hlt] at hh
      exact hres h hh

/-- C10: every hit returned by `fsm_search` has length at least 1; a
zero-length match is never reported, even when the machine accepts the empty
string at some starting index. -/
theorem fsm_search_hit_length_pos (f : Fsm) (text : List WChar)
    (greedy overlap : Bool) :
    ∀ h ∈ fsm_search f text greedy overlap, 1 ≤ h.length := by
  intro h hh
  exact fsmSearchOuter_length_pos f text greedy overlap (text.length + 1) 0 []
    (by intro h' hh'; cases hh') h hh

/-- Witness for C10: on the machine for `a` and the text `aba`, `fsm_search`
returns the hit at index 0, whose length 1 satisfies the bound; the machine
accepting the empty string (`exEpsMachine`) yields no hits at all. -/
theorem fsm_search_hit_length_pos_witness :
    regex_hit_create 0 1 ∈ fsm_search exMa [97, 98, 97] false false ∧
    (1 : Int) ≤ (regex_hit_create 0 1).length ∧
    fsm_search exEpsMachine [97, 98] false false = [] := by
  refine ⟨by decide, ?_, by decide⟩
  exact fsm_search_hit_length_pos exMa [97, 98, 97] false false _ (by decide)

/- ## Claim C5: default start state -/

theorem fsm_add_trans_start (f : Fsm) (state : Int) (ft : FsmTrans) :
    (fsm_add_trans f state ft).start = f.start := by
  rw [fsm_add_trans]
  split <;> rfl

theorem fsmExtendStates_start (f : Fsm) (src dst : Int) :
    (fsmExtendStates f src dst).start = f.start := by
  rw [fsmExtendStates]
  split <;> rfl

theorem fsm_parsetrans_start (line : List WChar) (f : Fsm) :
    (fsm_parsetrans line f).start = f.start := by
  rw [fsm_parsetrans]
  cases scanTransHeader line with
  | none => rfl
  | some v =>
    obtain ⟨src, dst, tc, sub⟩ := v
    rw [fsm_add_trans_start, fsmExtendStates_start]

theorem fsm_parsetranslines_start (lines : List (List WChar)) :
    ∀ f : Fsm, (fsm_parsetranslines lines f).start = f.start := by
  induction lines with
  | nil => intro f; rfl
  | cons l rest ih =>
    intro f
    show (fsm_parsetranslines rest (fsm_parsetrans l f)).start = f.start
    rw [ih, fsm_parsetrans_start]

theorem fsm_parseacceptlines_start (lines : List (List WChar)) :
    ∀ f : Fsm, (fsm_parseacceptlines lines f).2.start = f.start := by
  induction lines with
  | nil => intro f; rfl
  | cons l rest ih =>
    intro f
    rw [fsm_parseacceptlines]
    cases scanKeyInt (wstr "accept:") l with
    | none => rfl
    | some state => rw [ih]

/-- C5 counterexample: the text `start:-1\n` has a first line that is not a
`start-line` of the specification grammar (`"start:" ws* nat` admits no
sign), yet `fsm_read` parses it through `swscanf`'s signed `%d` and returns a
machine whose start state is -1, not 0. -/
theorem fsm_read_signed_start_counterexample :
    spec_is_start_line (wstr "start:-1") = false ∧
    split_linesw (wstr "start:-1\n") = [wstr "start:-1"] ∧
    (fsm_read (wstr "start:-1\n")).map (fun f => f.start) = some (-1) := by
  refine ⟨by decide, by decide, by decide⟩

/-- C5 amended: for every description text with at least one line whose first
line does not match the code's start-line parse (`swscanf(line, "start:%d")`,
which accepts optional whitespace and an optionally signed integer after the
literal key), `fsm_read` returns a machine whose start state is 0. -/
theorem fsm_read_default_start (source : List WChar)
    (hne : split_linesw source ≠ [])
    (hns : scanKeyInt (wstr "start:") ((split_linesw source).headD []) = none) :
    ∃ g, fsm_read source = some g ∧ g.start = 0 := by
  cases hsp : split_linesw source with
  | nil => exact absurd hsp hne
  | cons line rest =>
    have hhead : (split_linesw source).headD [] = line := by rw [hsp]; rfl
    rw [hhead] at hns
    rw [fsm_read, hsp]
    simp only [fsm_parselines, hns]
    refine ⟨_, rfl, ?_⟩
    rw [fsm_parsetranslines_start, fsm_parseacceptlines_start]

/-- Witness for the amended C5: a description with no start line at all. -/
theorem fsm_read_default_start_witness :
    split_linesw (wstr "accept:1\n0-1:+a-a\n") ≠ [] ∧
    scanKeyInt (wstr "start:")
      ((split_linesw (wstr "accept:1\n0-1:+a-a\n")).headD []) = none ∧
    ∃ g, fsm_read (wstr "accept:1\n0-1:+a-a\n") = some g ∧ g.start = 0 :=
  ⟨by decide, by decide,
    fsm_read_default_start (wstr "accept:1\n0-1:+a-a\n") (by decide) (by decide)⟩

/- ## Claim C2: persistence round-trip -/

/-- C2 (code bug): the two-state machine whose only edge is the dedicated
epsilon transition accepts the empty string, but writing it with `fsm_print`
and reading the text back with `fsm_read` yields a machine whose lone
transition has an empty range set (the printed `\e` escape is not decoded by
`fsm_parsetrans`), and that machine rejects the empty string.  The round-trip
therefore does not preserve the accepted language. -/
theorem fsm_print_read_roundtrip_breaks_on_epsilon :
    fsm_sim_nondet exEpsMachine [] = true ∧
    fsm_print exEpsMachine =
      wstr "start:0\naccept:1\n0-1:+\\e-\\e\n" ∧
    fsm_read (fsm_print exEpsMachine) =
      some { start := 0,
             transitions := [[{ type := FSM_TRANS_POSITIVE, ranges := [], dest := 1 }], []],
             accepting := [1] } ∧
    (fsm_read (fsm_print exEpsMachine)).map (fun m => fsm_sim_nondet m []) =
      some false := by
  refine ⟨by decide, by decide, by decide, by decide⟩

/- ## Claim C1: fsm_union -/

theorem set_append_last {α : Type} (T : List α) (x y : α) :
    (T ++ [x]).set T.length y = T ++ [y] := by
  rw [List.set_append]
  rw [if_neg (by omega)]
  simp

theorem getD_append_last {α : Type} (T : List α) (x d : α) :
    (T ++ [x]).getD T.length d = x := by
  rw [List.getD_append_right _ _ _ _ (le_refl _)]
  simp

/-- Structural description of `fsm_union A B`: the transitions are `A`'s
lists, then `B`'s lists with cloned, offset transitions, then the fresh start
state carrying the two epsilon edges; the accepting list is `A`'s followed by
`B`'s shifted; the start is the fresh state. -/
theorem fsm_union_eq (A B : Fsm) :
    fsm_union A B =
      { start := ((A.transitions.length + B.transitions.length : Nat) : Int),
        transitions :=
          (A.transitions ++
            B.transitions.map
              (fun l => l.map (shiftTrans (A.transitions.length : Int)))) ++
          [[(fsm_trans_create_single EPSILON EPSILON FSM_TRANS_POSITIVE A.start).2,
            (fsm_trans_create_single EPSILON EPSILON FSM_TRANS_POSITIVE
              (B.start + (A.transitions.length : Int))).2]],
        accepting :=
          A.accepting ++
            B.accepting.map (fun a => a + (A.transitions.length : Int)) } := by
  set n := A.transitions.length with hn
  set m := B.transitions.length with hm
  set e1 := (fsm_trans_create_single EPSILON EPSILON FSM_TRANS_POSITIVE A.start).2
  set e2 := (fsm_trans_create_single EPSILON EPSILON FSM_TRANS_POSITIVE
    (B.start + (n : Int))).2
  set T := A.transitions ++
    B.transitions.map (fun l => l.map (shiftTrans (n : Int))) with hT
  have hTlen : T.length = n + m := by
    rw [hT, List.length_append, List.length_map]
  have htn : (((n + m : Nat) : Int)).toNat = n + m := rfl
  rw [fsm_union]
  simp only [fsm_copy_trans, fsm_add_state, Bool.false_eq_true, if_false]
  rw [← hn, ← hT]
  rw [show (T.length : Int) = ((n + m : Nat) : Int) from by rw [hTlen]]
  have h1 : fsm_add_trans
      { start := A.start, transitions := T ++ [[]], accepting := A.accepting }
      (((n + m : Nat) : Int)) e1 =
      { start := A.start, transitions := T ++ [[e1]], accepting := A.accepting } := by
    rw [fsm_add_trans]
    rw [if_pos (by
      constructor
      · exact Int.natCast_nonneg _
      · rw [htn, List.length_append, hTlen]
        simp)]
    have hget : (T ++ [[]]).getD (((n + m : Nat) : Int)).toNat [] = ([] : List FsmTrans) := by
      rw [htn, ← hTlen, getD_append_last]
    rw [hget]
    have hset : (T ++ [[]]).set (((n + m : Nat) : Int)).toNat ([] ++ [e1]) = T ++ [[e1]] := by
      rw [htn, ← hTlen, List.nil_append, set_append_last]
    rw [hset]
  rw [h1]
  have h2 : fsm_add_trans
      { start := A.start, transitions := T ++ [[e1]], accepting := A.accepting }
      (((n + m : Nat) : Int)) e2 =
      { start := A.start, transitions := T ++ [[e1, e2]], accepting := A.accepting } := by
    rw [fsm_add_trans]
    rw [if_pos (by
      constructor
      · exact Int.natCast_nonneg _
      · rw [htn, List.length_append, hTlen]
        simp)]
    have hget : (T ++ [[e1]]).getD (((n + m : Nat) : Int)).toNat [] = [e1] := by
      rw [htn, ← hTlen, getD_append_last]
    rw [hget]
    have hset : (T ++ [[e1]]).set (((n + m : Nat) : Int)).toNat ([e1] ++ [e2]) =
        T ++ [[e1, e2]] := by
      rw [htn, ← hTlen, set_append_last]
      rfl
    rw [hset]
  rw [h2]

theorem fsm_union_transitions_length (A B : Fsm) :
    (fsm_union A B).transitions.length =
      A.transitions.length + B.transitions.length + 1 := by
  rw [fsm_union_eq]
  simp
  omega

theorem fsm_union_start (A B : Fsm) :
    (fsm_union A B).start = ((A.transitions.length + B.transitions.length : Nat) : Int) := by
  rw [fsm_union_eq]

theorem fsm_union_accepting (A B : Fsm) :
    (fsm_union A B).accepting =
      A.accepting ++ B.accepting.map (fun a => a + (A.transitions.length : Int)) := by
  rw [fsm_union_eq]

theorem fsm_edges_union_A (A B : Fsm) (p : Int)
    (h0 : 0 ≤ p) (hp : p.toNat < A.transitions.length) :
    fsm_edges (fsm_union A B) p = fsm_edges A p := by
  rw [fsm_edges, fsm_edges, if_pos h0, if_pos h0, fsm_union_eq]
  show ((A.transitions ++ _) ++ _).getD p.toNat [] = _
  rw [List.getD_append _ _ _ _ (by rw [List.length_append, List.length_map]; omega)]
  rw [List.getD_append _ _ _ _ hp]

theorem fsm_edges_union_B (A B : Fsm) (b : Int)
    (h0 : 0 ≤ b) (hb : b.toNat < B.transitions.length) :
    fsm_edges (fsm_union A B) (b + (A.transitions.length : Int)) =
      (fsm_edges B b).map (shiftTrans (A.transitions.length : Int)) := by
  have hge : (0 : Int) ≤ b + (A.transitions.length : Int) := by omega
  rw [fsm_edges, fsm_edges, if_pos hge, if_pos h0, fsm_union_eq]
  show ((A.transitions ++ _) ++ _).getD _ [] = _
  have htn : (b + (A.transitions.length : Int)).toNat =
      b.toNat + A.transitions.length := by omega
  rw [htn]
  rw [List.getD_append _ _ _ _ (by rw [List.length_append, List.length_map]; omega)]
  rw [List.getD_append_right _ _ _ _ (by omega)]
  have hidx : b.toNat + A.transitions.length - A.transitions.length = b.toNat := by omega
  rw [hidx]
  rcases List.getElem?_eq_some_iff.mpr ⟨hb, rfl⟩ with _
  rw [List.getD_eq_getElem?_getD, List.getD_eq_getElem?_getD]
  rw [List.getElem?_map]
  cases hbe : B.transitions[b.toNat]? with
  | none => simp
  | some l => simp

theorem fsm_edges_union_q (A B : Fsm) :
    fsm_edges (fsm_union A B)
        (((A.transitions.length + B.transitions.length : Nat) : Int)) =
      [(fsm_trans_create_single EPSILON EPSILON FSM_TRANS_POSITIVE A.start).2,
       (fsm_trans_create_single EPSILON EPSILON FSM_TRANS_POSITIVE
         (B.start + (A.transitions.length : Int))).2] := by
  rw [fsm_edges, if_pos (Int.natCast_nonneg _), fsm_union_eq]
  show ((A.transitions ++ _) ++ _).getD _ [] = _
  have htn : (((A.transitions.length + B.transitions.length : Nat) : Int)).toNat =
      A.transitions.length + B.transitions.length := rfl
  rw [htn]
  have hlen : (A.transitions ++
      B.transitions.map (fun l => l.map (shiftTrans (A.transitions.length : Int)))).length =
      A.transitions.length + B.transitions.length := by
    rw [List.length_append, List.length_map]
  rw [← hlen, getD_append_last]

theorem takeWhile_and_eq {α : Type} (p q : α → Bool) (l : List α)
    (himp : ∀ a, (p a && q a) = q a) :
    (l.takeWhile p).takeWhile q = l.takeWhile q := by
  induction l with
  | nil => rfl
  | cons a rest ih =>
    by_cases hq : q a = true
    · have hp : p a = true := by
        have := himp a
        rw [hq] at this
        cases hpa : p a
        · rw [hpa] at this; simp at this
        · rfl
      rw [List.takeWhile_cons, if_pos hp, List.takeWhile_cons, if_pos hq,
        List.takeWhile_cons, if_pos hq, ih]
    · have hq' : q a = false := Bool.eq_false_iff.mpr hq
      by_cases hp : p a = true
      · rw [List.takeWhile_cons, if_pos hp, List.takeWhile_cons, hq',
          List.takeWhile_cons, hq']
        simp
      · rw [List.takeWhile_cons, if_neg hp, List.takeWhile_cons, hq']
        simp

/-- The scan in `fsm_trans_check` ignores the ranges a clone drops, so a
cloned (and shifted) transition accepts exactly the characters the original
does. -/
theorem shiftTrans_check (offset : Int) (t : FsmTrans) (c : WChar) :
    fsm_trans_check (shiftTrans offset t) c = fsm_trans_check t c := by
  rw [fsm_trans_check, fsm_trans_check]
  have heq : ((shiftTrans offset t).ranges.takeWhile
      (fun r => !(r.1 == 0) && !(r.2 == 0))) =
      (t.ranges.takeWhile (fun r => !(r.1 == 0) && !(r.2 == 0))) := by
    show ((t.ranges.takeWhile (fun r => !(r.1 == 0))).takeWhile
      (fun r => !(r.1 == 0) && !(r.2 == 0))) = _
    apply takeWhile_and_eq
    intro a
    cases h1 : (a.1 == 0) <;> cases h2 : (a.2 == 0) <;> rfl
  rw [heq]
  rfl

theorem shiftTrans_dest (offset : Int) (t : FsmTrans) :
    (shiftTrans offset t).dest = t.dest + offset := rfl

theorem shiftTrans_type (offset : Int) (t : FsmTrans) :
    (shiftTrans offset t).type = t.type := rfl

theorem eps_trans_check_eps (d : Int) :
    fsm_trans_check
      (fsm_trans_create_single EPSILON EPSILON FSM_TRANS_POSITIVE d).2 EPSILON = true := rfl

theorem fsm_trans_check_single_pos (lo hi : WChar) (d : Int) (c : WChar)
    (hlo : lo ≠ 0) (hhi : hi ≠ 0) :
    fsm_trans_check (fsm_trans_create_single lo hi FSM_TRANS_POSITIVE d).2 c =
      (decide (lo ≤ c) && decide (c ≤ hi)) := by
  have h2 : (fsm_trans_create_single lo hi FSM_TRANS_POSITIVE d).2 =
      { type := FSM_TRANS_POSITIVE, ranges := [(lo, hi)], dest := d } := rfl
  rw [h2, fsm_trans_check]
  have htw : ([(lo, hi)].takeWhile (fun r => !(r.1 == 0) && !(r.2 == 0))) =
      [(lo, hi)] := by
    rw [List.takeWhile_cons, if_pos (by simp [hlo, hhi])]
    rfl
  show (if (([(lo, hi)].takeWhile (fun r => !(r.1 == 0) && !(r.2 == 0))).any
      (fun r => decide (r.1 ≤ c) && decide (c ≤ r.2))) = true
    then (FSM_TRANS_POSITIVE == FSM_TRANS_POSITIVE)
    else !(FSM_TRANS_POSITIVE == FSM_TRANS_POSITIVE)) = _
  rw [htw]
  have hans : ([(lo, hi)].any (fun r => decide (r.1 ≤ c) && decide (c ≤ r.2))) =
      (decide (lo ≤ c) && decide (c ≤ hi)) := by
    simp [List.any]
  rw [hans]
  cases h : (decide (lo ≤ c) && decide (c ≤ hi)) <;> simp [h]

theorem eps_trans_check_ne (d : Int) (c : WChar) (hc : c ≠ EPSILON) :
    fsm_trans_check
      (fsm_trans_create_single EPSILON EPSILON FSM_TRANS_POSITIVE d).2 c = false := by
  rw [fsm_trans_check_single_pos EPSILON EPSILON d c (by decide) (by decide)]
  have hc' : ¬(c = -2) := by simpa [EPSILON] using hc
  simp only [EPSILON]
  by_cases h1 : (-2 : Int) ≤ c
  · by_cases h2 : c ≤ (-2 : Int)
    · exact absurd (le_antisymm h2 h1) hc'
    · simp [h1, h2]
  · simp [h1]

/-- Every transition reachable through `fsm_edges` of a well-formed machine
has an in-range destination. -/
theorem wf_edges (f : Fsm) (hWf : FsmWf f) (p : Int) (t : FsmTrans)
    (ht : t ∈ fsm_edges f p) :
    0 ≤ t.dest ∧ t.dest.toNat < f.transitions.length := by
  rw [fsm_edges] at ht
  split at ht
  · by_cases hin : p.toNat < f.transitions.length
    · have hl : f.transitions.getD p.toNat [] ∈ f.transitions := by
        rw [List.getD_eq_getElem?_getD, List.getElem?_eq_getElem hin]
        exact List.getElem_mem _
      exact hWf.2.1 _ hl t ht
    · rw [List.getD_eq_getElem?_getD, List.getElem?_eq_none (by omega)] at ht
      cases ht
  · cases ht

theorem epsReach_bounds (f : Fsm) (hWf : FsmWf f) (y x : Int)
    (hy : 0 ≤ y ∧ y.toNat < f.transitions.length) (h : EpsReach f y x) :
    0 ≤ x ∧ x.toNat < f.transitions.length := by
  induction h with
  | refl => exact hy
  | tail _ hstep ih =>
    obtain ⟨t, ht, _, hdest⟩ := hstep
    exact hdest ▸ wf_edges f hWf _ t ht

theorem epsreach_union_A_fwd (A B : Fsm) (hA : FsmWf A) (x : Int) :
    ∀ (s : Int), EpsReach (fsm_union A B) s x →
      (0 ≤ s ∧ s.toNat < A.transitions.length) → EpsReach A s x := by
  intro s h
  induction h using Relation.ReflTransGen.head_induction_on with
  | refl => intro _; exact Relation.ReflTransGen.refl
  | head hstep hrest ih =>
    intro hs
    obtain ⟨t, ht, hchk, hdest⟩ := hstep
    rw [fsm_edges_union_A A B _ hs.1 hs.2] at ht
    have hbound := wf_edges A hA _ t ht
    exact Relation.ReflTransGen.head ⟨t, ht, hchk, hdest⟩ (ih (hdest ▸ hbound))

theorem epsreach_union_A_rev (A B : Fsm) (hA : FsmWf A) (x : Int) :
    ∀ (s : Int), EpsReach A s x →
      (0 ≤ s ∧ s.toNat < A.transitions.length) → EpsReach (fsm_union A B) s x := by
  intro s h
  induction h using Relation.ReflTransGen.head_induction_on with
  | refl => intro _; exact Relation.ReflTransGen.refl
  | head hstep hrest ih =>
    intro hs
    obtain ⟨t, ht, hchk, hdest⟩ := hstep
    have hbound := wf_edges A hA _ t ht
    rw [← fsm_edges_union_A A B _ hs.1 hs.2] at ht
    exact Relation.ReflTransGen.head ⟨t, ht, hchk, hdest⟩ (ih (hdest ▸ hbound))

theorem epsreach_union_A_iff (A B : Fsm) (hA : FsmWf A) (s x : Int)
    (hs : 0 ≤ s ∧ s.toNat < A.transitions.length) :
    EpsReach (fsm_union A B) s x ↔ EpsReach A s x :=
  ⟨fun h => epsreach_union_A_fwd A B hA x s h hs,
   fun h => epsreach_union_A_rev A B hA x s h hs⟩

theorem epsreach_union_B_fwd (A B : Fsm) (hB : FsmWf B) (x : Int) :
    ∀ (s : Int), EpsReach (fsm_union A B) s x →
      ∀ b : Int, (0 ≤ b ∧ b.toNat < B.transitions.length) →
        s = b + (A.transitions.length : Int) →
      ∃ y, EpsReach B b y ∧ (0 ≤ y ∧ y.toNat < B.transitions.length) ∧
        x = y + (A.transitions.length : Int) := by
  intro s h
  induction h using Relation.ReflTransGen.head_induction_on with
  | refl =>
    intro b hb hs
    exact ⟨b, Relation.ReflTransGen.refl, hb, hs⟩
  | head hstep hrest ih =>
    intro b hb hs
    subst hs
    obtain ⟨t', ht', hchk, hdest⟩ := hstep
    rw [fsm_edges_union_B A B b hb.1 hb.2] at ht'
    obtain ⟨t, ht, rfl⟩ := List.mem_map.mp ht'
    rw [shiftTrans_check] at hchk
    rw [shiftTrans_dest] at hdest
    have hdb := wf_edges B hB b t ht
    obtain ⟨y, hy, hyb, hxy⟩ := ih t.dest hdb hdest.symm
    exact ⟨y, Relation.ReflTransGen.head ⟨t, ht, hchk, rfl⟩ hy, hyb, hxy⟩

theorem epsreach_union_B_rev (A B : Fsm) (hB : FsmWf B) (y : Int) :
    ∀ (b : Int), EpsReach B b y →
      (0 ≤ b ∧ b.toNat < B.transitions.length) →
      EpsReach (fsm_union A B) (b + (A.transitions.length : Int))
        (y + (A.transitions.length : Int)) := by
  intro b h
  induction h using Relation.ReflTransGen.head_induction_on with
  | refl => intro _; exact Relation.ReflTransGen.refl
  | head hstep hrest ih =>
    intro hb
    obtain ⟨t, ht, hchk, hdest⟩ := hstep
    have hbound := wf_edges B hB _ t ht
    refine Relation.ReflTransGen.head
      ⟨shiftTrans (A.transitions.length : Int) t, ?_, ?_, ?_⟩
      (ih (hdest ▸ hbound))
    · rw [fsm_edges_union_B A B _ hb.1 hb.2]
      exact List.mem_map_of_mem _ ht
    · rw [shiftTrans_check]; exact hchk
    · rw [shiftTrans_dest, hdest]

theorem epsreach_union_q_iff (A B : Fsm) (x : Int) :
    EpsReach (fsm_union A B)
        ((A.transitions.length + B.transitions.length : Nat) : Int) x ↔
      x = ((A.transitions.length + B.transitions.length : Nat) : Int) ∨
      EpsReach (fsm_union A B) A.start x ∨
      EpsReach (fsm_union A B) (B.start + (A.transitions.length : Int)) x := by
  constructor
  · intro h
    rcases Relation.ReflTransGen.cases_head h with heq | ⟨c, hstep, hrest⟩
    · exact Or.inl heq.symm
    · obtain ⟨t, ht, hchk, hdest⟩ := hstep
      rw [fsm_edges_union_q] at ht
      rcases List.mem_cons.mp ht with rfl | ht'
      · refine Or.inr (Or.inl ?_)
        rw [show A.start = c from hdest]
        exact hrest
      · rcases List.mem_cons.mp ht' with rfl | h0
        · refine Or.inr (Or.inr ?_)
          rw [show B.start + (A.transitions.length : Int) = c from hdest]
          exact hrest
        · cases h0
  · rintro (rfl | h | h)
    · exact Relation.ReflTransGen.refl
    · refine Relation.ReflTransGen.head
        ⟨(fsm_trans_create_single EPSILON EPSILON FSM_TRANS_POSITIVE A.start).2,
          ?_, eps_trans_check_eps _, rfl⟩ h
      rw [fsm_edges_union_q]
      exact List.mem_cons_self _ _
    · refine Relation.ReflTransGen.head
        ⟨(fsm_trans_create_single EPSILON EPSILON FSM_TRANS_POSITIVE
            (B.start + (A.transitions.length : Int))).2,
          ?_, eps_trans_check_eps _, rfl⟩ h
      rw [fsm_edges_union_q]
      exact List.mem_cons_of_mem _ (List.mem_cons_self _ _)

theorem step_union_decomp (A B : Fsm) (hA : FsmWf A) (hB : FsmWf B)
    (c : WChar) (SU SA SB : List Int) (qok : Bool)
    (hq : qok = true → c ≠ EPSILON)
    (hSA : ∀ x ∈ SA, 0 ≤ x ∧ x.toNat < A.transitions.length)
    (hSB : ∀ x ∈ SB, 0 ≤ x ∧ x.toNat < B.transitions.length)
    (hinv : ∀ x : Int, x ∈ SU ↔
      (qok = true ∧ x = ((A.transitions.length + B.transitions.length : Nat) : Int)) ∨
      x ∈ SA ∨ ∃ b ∈ SB, x = b + (A.transitions.length : Int)) :
    ∀ x : Int, x ∈ fsm_sim_nondet_step_curr (fsm_union A B) SU c ↔
      x ∈ fsm_sim_nondet_step_curr A SA c ∨
      ∃ b ∈ fsm_sim_nondet_step_curr B SB c, x = b + (A.transitions.length : Int) := by
  intro x
  rw [mem_step_curr]
  constructor
  · rintro ⟨s, hsU, t, ht, hchk, hreach⟩
    rcases (hinv s).mp hsU with ⟨hqok, rfl⟩ | hsA | ⟨b, hb, rfl⟩
    · rw [fsm_edges_union_q] at ht
      rcases List.mem_cons.mp ht with rfl | ht'
      · rw [eps_trans_check_ne _ c (hq hqok)] at hchk
        cases hchk
      · rcases List.mem_cons.mp ht' with rfl | h0
        · rw [eps_trans_check_ne _ c (hq hqok)] at hchk
          cases hchk
        · cases h0
    · have hsb := hSA s hsA
      rw [fsm_edges_union_A A B _ hsb.1 hsb.2] at ht
      have htb := wf_edges A hA _ t ht
      left
      rw [mem_step_curr]
      exact ⟨s, hsA, t, ht, hchk, (epsreach_union_A_iff A B hA _ x htb).mp hreach⟩
    · have hbb := hSB b hb
      rw [fsm_edges_union_B A B b hbb.1 hbb.2] at ht
      obtain ⟨t0, ht0, rfl⟩ := List.mem_map.mp ht
      rw [shiftTrans_check] at hchk
      have htb := wf_edges B hB _ t0 ht0
      rw [shiftTrans_dest] at hreach
      obtain ⟨y, hy, hyb, rfl⟩ := epsreach_union_B_fwd A B hB x _ hreach t0.dest htb rfl
      right
      exact ⟨y, (mem_step_curr B SB c y).mpr ⟨b, hb, t0, ht0, hchk, hy⟩, rfl⟩
  · rintro (hxa | ⟨y, hyB, rfl⟩)
    · rw [mem_step_curr] at hxa
      obtain ⟨s, hsA, t, ht, hchk, hreach⟩ := hxa
      have hsb := hSA s hsA
      have htb := wf_edges A hA _ t ht
      refine ⟨s, (hinv s).mpr (Or.inr (Or.inl hsA)), t, ?_, hchk, ?_⟩
      · rw [fsm_edges_union_A A B _ hsb.1 hsb.2]
        exact ht
      · exact (epsreach_union_A_iff A B hA _ x htb).mpr hreach
    · rw [mem_step_curr] at hyB
      obtain ⟨b, hbB, t, ht, hchk, hreach⟩ := hyB
      have hbb := hSB b hbB
      have htb := wf_edges B hB _ t ht
      refine ⟨b + (A.transitions.length : Int),
        (hinv _).mpr (Or.inr (Or.inr ⟨b, hbB, rfl⟩)),
        shiftTrans (A.transitions.length : Int) t, ?_, ?_, ?_⟩
      · rw [fsm_edges_union_B A B b hbb.1 hbb.2]
        exact List.mem_map_of_mem _ ht
      · rw [shiftTrans_check]
        exact hchk
      · rw [shiftTrans_dest]
        exact epsreach_union_B_rev A B hB y t.dest hreach htb

theorem step_curr_bounds (f : Fsm) (hWf : FsmWf f) (S : List Int) (c : WChar) :
    ∀ x ∈ fsm_sim_nondet_step_curr f S c,
      0 ≤ x ∧ x.toNat < f.transitions.length := by
  intro x hx
  obtain ⟨s, _, t, ht, _, hreach⟩ := (mem_step_curr f S c x).mp hx
  exact epsReach_bounds f hWf t.dest x (wf_edges f hWf _ t ht) hreach

theorem closure_bounds (f : Fsm) (hWf : FsmWf f) (s : Int)
    (hs : 0 ≤ s ∧ s.toNat < f.transitions.length) :
    ∀ x ∈ fsm_sim_nondet_epsilon_closure f s,
      0 ≤ x ∧ x.toNat < f.transitions.length := by
  intro x hx
  exact epsReach_bounds f hWf s x hs ((mem_epsilon_closure f s x).mp hx)

theorem union_foldl_decomp (A B : Fsm) (hA : FsmWf A) (hB : FsmWf B) :
    ∀ (s : List WChar), (∀ c ∈ s, c ≠ EPSILON) →
    ∀ (SU SA SB : List Int) (qok : Bool),
      (∀ x ∈ SA, 0 ≤ x ∧ x.toNat < A.transitions.length) →
      (∀ x ∈ SB, 0 ≤ x ∧ x.toNat < B.transitions.length) →
      (∀ x : Int, x ∈ SU ↔
        (qok = true ∧ x = ((A.transitions.length + B.transitions.length : Nat) : Int)) ∨
        x ∈ SA ∨ ∃ b ∈ SB, x = b + (A.transitions.length : Int)) →
      (∀ x : Int,
        x ∈ s.foldl (fsm_sim_nondet_step_curr (fsm_union A B)) SU ↔
          ((s.isEmpty && qok) = true ∧
            x = ((A.transitions.length + B.transitions.length : Nat) : Int)) ∨
          x ∈ s.foldl (fsm_sim_nondet_step_curr A) SA ∨
          ∃ b ∈ s.foldl (fsm_sim_nondet_step_curr B) SB,
            x = b + (A.transitions.length : Int)) ∧
      (∀ x ∈ s.foldl (fsm_sim_nondet_step_curr A) SA,
        0 ≤ x ∧ x.toNat < A.transitions.length) ∧
      (∀ x ∈ s.foldl (fsm_sim_nondet_step_curr B) SB,
        0 ≤ x ∧ x.toNat < B.transitions.length) := by
  intro s
  induction s with
  | nil =>
    intro _ SU SA SB qok hSA hSB hinv
    refine ⟨?_, hSA, hSB⟩
    intro x
    simpa using hinv x
  | cons c rest ih =>
    intro hs SU SA SB qok hSA hSB hinv
    have hc : c ≠ EPSILON := hs c (List.mem_cons_self _ _)
    have hstep := step_union_decomp A B hA hB c SU SA SB qok (fun _ => hc) hSA hSB hinv
    have hinv' : ∀ x : Int,
        x ∈ fsm_sim_nondet_step_curr (fsm_union A B) SU c ↔
          ((false : Bool) = true ∧
            x = ((A.transitions.length + B.transitions.length : Nat) : Int)) ∨
          x ∈ fsm_sim_nondet_step_curr A SA c ∨
          ∃ b ∈ fsm_sim_nondet_step_curr B SB c,
            x = b + (A.transitions.length : Int) := by
      intro x
      rw [hstep x]
      simp
    obtain ⟨h1, h2, h3⟩ := ih (fun d hd => hs d (List.mem_cons_of_mem _ hd))
      (fsm_sim_nondet_step_curr (fsm_union A B) SU c)
      (fsm_sim_nondet_step_curr A SA c)
      (fsm_sim_nondet_step_curr B SB c) false
      (step_curr_bounds A hA SA c) (step_curr_bounds B hB SB c) hinv'
    refine ⟨?_, h2, h3⟩
    intro x
    rw [List.foldl_cons, List.foldl_cons, List.foldl_cons, h1 x]
    simp

theorem inter_union_decomp (A B : Fsm) (hA : FsmWf A) (hB : FsmWf B)
    (SU SA SB : List Int) (qok : Bool)
    (hSA : ∀ x ∈ SA, 0 ≤ x ∧ x.toNat < A.transitions.length)
    (hSB : ∀ x ∈ SB, 0 ≤ x ∧ x.toNat < B.transitions.length)
    (hinv : ∀ x : Int, x ∈ SU ↔
      (qok = true ∧ x = ((A.transitions.length + B.transitions.length : Nat) : Int)) ∨
      x ∈ SA ∨ ∃ b ∈ SB, x = b + (A.transitions.length : Int)) :
    fsm_sim_nondet_non_empty_intersection (fsm_union A B).accepting SU =
      (fsm_sim_nondet_non_empty_intersection A.accepting SA ||
        fsm_sim_nondet_non_empty_intersection B.accepting SB) := by
  have hiff : fsm_sim_nondet_non_empty_intersection (fsm_union A B).accepting SU = true ↔
      (fsm_sim_nondet_non_empty_intersection A.accepting SA = true ∨
        fsm_sim_nondet_non_empty_intersection B.accepting SB = true) := by
    rw [mem_intersection, mem_intersection, mem_intersection, fsm_union_accepting]
    constructor
    · rintro ⟨a, haU, haS⟩
      rcases List.mem_append.mp haU with haA | haB
      · have hab := hA.2.2 a haA
        rcases (hinv a).mp haS with ⟨_, rfl⟩ | hSA' | ⟨b, hbS, rfl⟩
        · exfalso
          have : ((A.transitions.length + B.transitions.length : Nat) : Int).toNat =
              A.transitions.length + B.transitions.length := rfl
          omega
        · exact Or.inl ⟨a, haA, hSA'⟩
        · exfalso
          have hbb := hSB b hbS
          omega
      · obtain ⟨b0, hb0, rfl⟩ := List.mem_map.mp haB
        have hb0b := hB.2.2 b0 hb0
        rcases (hinv _).mp haS with ⟨_, heq⟩ | hSA' | ⟨b, hbS, heq⟩
        · exfalso
          have : ((A.transitions.length + B.transitions.length : Nat) : Int).toNat =
              A.transitions.length + B.transitions.length := rfl
          omega
        · exfalso
          have := hSA _ hSA'
          omega
        · have hbe : b0 = b := by omega
          exact Or.inr ⟨b0, hb0, hbe ▸ hbS⟩
    · rintro (⟨a, haA, haS⟩ | ⟨b, hbB, hbS⟩)
      · exact ⟨a, List.mem_append_left _ haA, (hinv a).mpr (Or.inr (Or.inl haS))⟩
      · exact ⟨b + (A.transitions.length : Int),
          List.mem_append_right _ (List.mem_map_of_mem _ hbB),
          (hinv _).mpr (Or.inr (Or.inr ⟨b, hbS, rfl⟩))⟩
  cases hU : fsm_sim_nondet_non_empty_intersection (fsm_union A B).accepting SU <;>
    cases hA' : fsm_sim_nondet_non_empty_intersection A.accepting SA <;>
    cases hB' : fsm_sim_nondet_non_empty_intersection B.accepting SB <;>
    simp_all

theorem union_initial_inv (A B : Fsm) (hA : FsmWf A) (hB : FsmWf B) :
    ∀ x : Int,
      x ∈ fsm_sim_nondet_epsilon_closure (fsm_union A B) (fsm_union A B).start ↔
        ((true : Bool) = true ∧
          x = ((A.transitions.length + B.transitions.length : Nat) : Int)) ∨
        x ∈ fsm_sim_nondet_epsilon_closure A A.start ∨
        ∃ b ∈ fsm_sim_nondet_epsilon_closure B B.start,
          x = b + (A.transitions.length : Int) := by
  intro x
  rw [mem_epsilon_closure, fsm_union_start, epsreach_union_q_iff]
  constructor
  · rintro (rfl | h | h)
    · exact Or.inl ⟨rfl, rfl⟩
    · exact Or.inr (Or.inl ((mem_epsilon_closure A A.start x).mpr
        ((epsreach_union_A_iff A B hA A.start x hA.1).mp h)))
    · obtain ⟨y, hy, _, rfl⟩ := epsreach_union_B_fwd A B hB x _ h B.start hB.1 rfl
      exact Or.inr (Or.inr ⟨y, (mem_epsilon_closure B B.start y).mpr hy, rfl⟩)
  · rintro (⟨_, rfl⟩ | h | ⟨b, hb, rfl⟩)
    · exact Or.inl rfl
    · exact Or.inr (Or.inl ((epsreach_union_A_iff A B hA A.start x hA.1).mpr
        ((mem_epsilon_closure A A.start x).mp h)))
    · exact Or.inr (Or.inr (epsreach_union_B_rev A B hB b B.start
        ((mem_epsilon_closure B B.start b).mp hb) hB.1))

/-- C1: for well-formed machines `A` and `B` and every input string over the
ordinary alphabet (no EPSILON sentinel), the nondeterministic driver accepts
an input on `fsm_union A B` exactly when it accepts it on `A` or on `B`. -/
theorem fsm_union_sim_nondet (A B : Fsm) (hA : FsmWf A) (hB : FsmWf B)
    (s : List WChar) (hs : ∀ c ∈ s, c ≠ EPSILON) :
    fsm_sim_nondet (fsm_union A B) s = (fsm_sim_nondet A s || fsm_sim_nondet B s) := by
  rw [fsm_sim_nondet, fsm_sim_nondet, fsm_sim_nondet,
      fsm_sim_nondet_run_iff, fsm_sim_nondet_run_iff, fsm_sim_nondet_run_iff]
  obtain ⟨h1, h2, h3⟩ := union_foldl_decomp A B hA hB s hs
    (fsm_sim_nondet_epsilon_closure (fsm_union A B) (fsm_union A B).start)
    (fsm_sim_nondet_epsilon_closure A A.start)
    (fsm_sim_nondet_epsilon_closure B B.start) true
    (closure_bounds A hA A.start hA.1) (closure_bounds B hB B.start hB.1)
    (union_initial_inv A B hA hB)
  exact inter_union_decomp A B hA hB _ _ _ (s.isEmpty && true) h2 h3 h1

/-- Witness for C1: the machines for `a` and `b` are well-formed; the union
accepts the one-character strings `a` and `b` (each accepted by one operand)
and rejects `c` and the empty string (rejected by both). -/
theorem fsm_union_sim_nondet_witness :
    FsmWf exMa ∧ FsmWf exMb ∧
    (∀ c ∈ [(97 : WChar)], c ≠ EPSILON) ∧
    fsm_sim_nondet (fsm_union exMa exMb) [97] =
      (fsm_sim_nondet exMa [97] || fsm_sim_nondet exMb [97]) ∧
    fsm_sim_nondet (fsm_union exMa exMb) [97] = true ∧
    fsm_sim_nondet (fsm_union exMa exMb) [99] =
      (fsm_sim_nondet exMa [99] || fsm_sim_nondet exMb [99]) ∧
    fsm_sim_nondet (fsm_union exMa exMb) [99] = false := by
  refine ⟨by decide, by decide, by decide,
    fsm_union_sim_nondet exMa exMb (by decide) (by decide) [97] (by decide),
    by decide,
    fsm_union_sim_nondet exMa exMb (by decide) (by decide) [99] (by decide),
    by decide⟩

/- ## Claim C7: lex_yylex on inputs with no match -/

theorem lex_step_loop_no_accept (c : WChar) (currIdx : Int) :
    ∀ (ps : List (Fsm × List Int)) (i lastPattern lastIndex : Int),
      (∀ q ∈ ps, lex_sim_accepting q.1 (lex_sim_step q.1 q.2 c) = false) →
      (lex_step_loop c currIdx ps i lastPattern lastIndex).2 =
        (lastPattern, lastIndex) := by
  intro ps
  induction ps with
  | nil => intro i lp li _; rfl
  | cons q rest ih =>
    intro i lp li hnone
    obtain ⟨f, cur⟩ := q
    show (lex_step_loop c currIdx ((f, cur) :: rest) i lp li).2 = _
    rw [lex_step_loop]
    have hfc : lex_sim_accepting f (lex_sim_step f cur c) = false :=
      hnone (f, cur) (List.mem_cons_self _ _)
    rw [hfc]
    simp only [Bool.false_and, if_false]
    exact ih (i + 1) lp li (fun q hq => hnone q (List.mem_cons_of_mem _ hq))

theorem zip_map_self {α β : Type} (g : α → β) :
    ∀ l : List α, l.zip (l.map g) = l.map (fun a => (a, g a)) := by
  intro l
  induction l with
  | nil => rfl
  | cons a rest ih => simp [List.zip_cons_cons, ih]

theorem lexPatternCurr_nil (f : Fsm) :
    lexPatternCurr f [] = fsm_sim_nondet_epsilon_closure f f.start := rfl

theorem lexPatternCurr_snoc (f : Fsm) (pfx : List WChar) (c : WChar) :
    lexPatternCurr f (pfx ++ [c]) =
      fsm_sim_nondet_step_curr f (lexPatternCurr f pfx) c := by
  rw [lexPatternCurr, lexPatternCurr, List.foldl_append, List.foldl_cons,
    List.foldl_nil]

theorem lexAnyAccepting_false_elim (lex : SmbLex) (pfx : List WChar)
    (h : lexAnyAccepting lex pfx = false) :
    ∀ f ∈ lex.patterns, lex_sim_accepting f (lexPatternCurr f pfx) = false := by
  intro f hf
  rw [lexAnyAccepting, List.any_eq_false] at h
  have := h f hf
  simpa using this

/-- C7 counterexample: on the lexer whose single pattern is the machine for
`a` and the input `b`, no pattern ever reaches an accepting classification,
yet `lex_yylex` returns the no-match result with length 0, not -1. -/
theorem lex_yylex_nomatch_length_zero :
    (∀ j : Nat, 1 ≤ j → j ≤ 2 →
      lexAnyAccepting exLexA (([98] ++ [0]).take j) = false) ∧
    lex_yylex exLexA [98] = some (none, 0) ∧
    ((0 : Int) = -1 → False) := by
  refine ⟨by decide, by decide, by decide⟩

/-- C7 amended: on any lexer and input where no pattern reaches an accepting
classification at any step of the scan (including the step that consumes the
terminating NUL), `lex_yylex` finishes after the first step and returns the
no-match result: a null token and length 0 (`last_index + 1` with
`last_index = -1`), not length -1. -/
theorem lex_yylex_nomatch (lex : SmbLex) (input : List WChar)
    (hnone : ∀ j : Nat, 1 ≤ j → j ≤ input.length + 1 →
      lexAnyAccepting lex ((input ++ [0]).take j) = false) :
    lex_yylex lex input = some (none, 0) := by
  have hstep1 : ∀ c : WChar, (input ++ [0]).take 1 = [c] →
      lex_step lex (lex_start_sims lex) (-1) (-1) c =
        ((lex.patterns.map (fun f => (f, lexPatternCurr f []))).map
            (fun q => lex_sim_step q.1 q.2 c),
          -1, -1, true) := by
    intro c hc
    have hacc : ∀ f ∈ lex.patterns,
        lex_sim_accepting f (lexPatternCurr f [c]) = false := by
      have h1 := hnone 1 (by omega) (by omega)
      rw [hc] at h1
      exact lexAnyAccepting_false_elim lex [c] h1
    rw [lex_step]
    have hzip : lex.patterns.zip (lex_start_sims lex) =
        lex.patterns.map (fun f => (f, lexPatternCurr f [])) := by
      rw [lex_start_sims]
      exact zip_map_self _ _
    rw [hzip]
    have hnoq : ∀ q ∈ lex.patterns.map (fun f => (f, lexPatternCurr f [])),
        lex_sim_accepting q.1 (lex_sim_step q.1 q.2 c) = false := by
      intro q hq
      obtain ⟨f, hf, rfl⟩ := List.mem_map.mp hq
      have heq : lex_sim_step f (lexPatternCurr f []) c = lexPatternCurr f [c] := by
        rw [show ([c] : List WChar) = [] ++ [c] from rfl, lexPatternCurr_snoc]
        rfl
      show lex_sim_accepting f (lex_sim_step f (lexPatternCurr f []) c) = false
      rw [heq]
      exact hacc f hf
    have hres := lex_step_loop_no_accept c ((-1) + 1)
      (lex.patterns.map (fun f => (f, lexPatternCurr f []))) 0 (-1) (-1) hnoq
    have hsims : ∀ (ps : List (Fsm × List Int)) (i lp li : Int),
        (lex_step_loop c ((-1) + 1) ps i lp li).1 =
          ps.map (fun q => lex_sim_step q.1 q.2 c) := by
      intro ps
      induction ps with
      | nil => intro i lp li; rfl
      | cons q rest ih =>
        intro i lp li
        obtain ⟨f, cur⟩ := q
        show (lex_step_loop c ((-1) + 1) ((f, cur) :: rest) i lp li).1 = _
        rw [lex_step_loop]
        simp only [List.map_cons]
        rw [ih]
    refine Prod.ext ?_ (Prod.ext ?_ (Prod.ext ?_ ?_)) <;>
      simp only [hsims, hres]
    rfl
  rw [lex_yylex]
  cases input with
  | nil =>
    rw [lex_yylex_loop]
    rw [hstep1 0 rfl]
    rfl
  | cons c rest =>
    rw [lex_yylex_loop]
    rw [hstep1 c rfl]
    rfl

/-- Witness for the amended C7 at the one-pattern lexer for `a` on input
`b`. -/
theorem lex_yylex_nomatch_witness :
    (∀ j : Nat, 1 ≤ j → j ≤ 2 →
      lexAnyAccepting exLexA (([98] ++ [0]).take j) = false) ∧
    lex_yylex exLexA [98] = some (none, 0) :=
  ⟨by decide, lex_yylex_nomatch exLexA [98] (by decide)⟩

/-- The simulations component of the `lex_step` inner loop: every simulation
is stepped over the character, independent of the recording bookkeeping. -/
theorem lex_step_loop_fst (c : WChar) (currIdx : Int) :
    ∀ (ps : List (Fsm × List Int)) (i lastPattern lastIndex : Int),
      (lex_step_loop c currIdx ps i lastPattern lastIndex).1 =
        ps.map (fun q => lex_sim_step q.1 q.2 c) := by
  intro ps
  induction ps with
  | nil => intro i lp li; rfl
  | cons q rest ih =>
    intro i lp li
    obtain ⟨f, cur⟩ := q
    show (lex_step_loop c currIdx ((f, cur) :: rest) i lp li).1 = _
    rw [lex_step_loop]
    simp only [List.map_cons]
    rw [ih]

/-- Once a pattern has been recorded at the current index
(`¬ last_index < curr_idx`), the inner loop leaves the recorded pattern and
index unchanged: later accepting patterns in the same step cannot overwrite
the earlier one. -/
theorem lex_step_loop_snd_stale (c : WChar) (currIdx : Int) :
    ∀ (ps : List (Fsm × List Int)) (i lastPattern lastIndex : Int),
      ¬ lastIndex < currIdx →
      (lex_step_loop c currIdx ps i lastPattern lastIndex).2 =
        (lastPattern, lastIndex) := by
  intro ps
  induction ps with
  | nil => intro i lp li _; rfl
  | cons q rest ih =>
    intro i lp li hli
    obtain ⟨f, cur⟩ := q
    show (lex_step_loop c currIdx ((f, cur) :: rest) i lp li).2 = _
    rw [lex_step_loop]
    have hd : decide (li < currIdx) = false := by simpa using hli
    rw [hd]
    simp only [Bool.and_false, if_false]
    exact ih (i + 1) lp li hli

/-- When some stepped simulation is accepting and nothing is recorded yet at
the current index, the inner loop records the first accepting pattern in
load order together with the current index. -/
theorem lex_step_loop_snd_acc (c : WChar) (currIdx : Int) :
    ∀ (ps : List (Fsm × List Int)) (i lastPattern lastIndex : Int),
      lastIndex < currIdx →
      (∃ q ∈ ps, lex_sim_accepting q.1 (lex_sim_step q.1 q.2 c) = true) →
      (lex_step_loop c currIdx ps i lastPattern lastIndex).2 =
        (i + ((ps.findIdx
            (fun q => lex_sim_accepting q.1 (lex_sim_step q.1 q.2 c)) : Nat) : Int),
          currIdx) := by
  intro ps
  induction ps with
  | nil =>
    intro i lp li _ hex
    exact absurd hex (by simp)
  | cons q rest ih =>
    intro i lp li hli hex
    obtain ⟨f, cur⟩ := q
    show (lex_step_loop c currIdx ((f, cur) :: rest) i lp li).2 = _
    rw [lex_step_loop]
    by_cases hf : lex_sim_accepting f (lex_sim_step f cur c) = true
    · have hd : decide (li < currIdx) = true := by simpa using hli
      rw [hf, hd]
      simp only [Bool.and_self, if_true]
      rw [lex_step_loop_snd_stale c currIdx rest (i + 1) i currIdx
        (lt_irrefl currIdx)]
      have hidx : (((f, cur) :: rest).findIdx
          (fun q => lex_sim_accepting q.1 (lex_sim_step q.1 q.2 c))) = 0 := by
        simp [List.findIdx_cons, hf]
      rw [hidx]
      simp
    · have hf' : lex_sim_accepting f (lex_sim_step f cur c) = false := by
        simpa using hf
      rw [hf']
      simp only [Bool.false_and]
      show (lex_step_loop c currIdx rest (i + 1) lp li).2 = _
      have hexr : ∃ q ∈ rest, lex_sim_accepting q.1 (lex_sim_step q.1 q.2 c) = true := by
        obtain ⟨q, hq, hqa⟩ := hex
        rcases List.mem_cons.mp hq with h | h
        · exact absurd hqa (by rw [h]; simp [hf'])
        · exact ⟨q, h, hqa⟩
      rw [ih (i + 1) lp li hli hexr]
      have hidx : (((f, cur) :: rest).findIdx
          (fun q => lex_sim_accepting q.1 (lex_sim_step q.1 q.2 c))) =
          (rest.findIdx (fun q => lex_sim_accepting q.1 (lex_sim_step q.1 q.2 c))) + 1 := by
        simp [List.findIdx_cons, hf']
      rw [hidx]
      refine Prod.ext ?_ rfl
      push_cast
      ring

/-- `findIdx` over a mapped list is `findIdx` of the composed predicate. -/
theorem findIdx_map {α β : Type} (g : α → β) (p : β → Bool) :
    ∀ l : List α, (l.map g).findIdx p = l.findIdx (fun a => p (g a)) := by
  intro l
  induction l with
  | nil => rfl
  | cons a rest ih => simp [List.findIdx_cons, ih]

/-- `lex_step` on the simulations for a consumed prefix, when some pattern
accepts after the next character: every simulation advances one character,
the earliest-loaded accepting pattern is recorded with the current index, and
the step is not final. -/
theorem lex_step_acc (lex : SmbLex) (pfx : List WChar) (c : WChar)
    (lp li : Int) (hacc : lexAnyAccepting lex (pfx ++ [c]) = true) :
    lex_step lex (lex.patterns.map (fun f => lexPatternCurr f pfx)) lp li c =
      (lex.patterns.map (fun f => lexPatternCurr f (pfx ++ [c])),
        ((lexFirstAcc lex (pfx ++ [c]) : Nat) : Int), li + 1, false) := by
  rw [lex_step]
  have hzip : lex.patterns.zip (lex.patterns.map (fun f => lexPatternCurr f pfx)) =
      lex.patterns.map (fun f => (f, lexPatternCurr f pfx)) := zip_map_self _ _
  rw [hzip]
  have hex : ∃ q ∈ lex.patterns.map (fun f => (f, lexPatternCurr f pfx)),
      lex_sim_accepting q.1 (lex_sim_step q.1 q.2 c) = true := by
    rw [lexAnyAccepting, List.any_eq_true] at hacc
    obtain ⟨f, hf, hfa⟩ := hacc
    refine ⟨(f, lexPatternCurr f pfx), List.mem_map_of_mem _ hf, ?_⟩
    show lex_sim_accepting f (lex_sim_step f (lexPatternCurr f pfx) c) = true
    rw [show lex_sim_step f (lexPatternCurr f pfx) c =
      lexPatternCurr f (pfx ++ [c]) from (lexPatternCurr_snoc f pfx c).symm]
    simpa using hfa
  have hfind : ((lex.patterns.map (fun f => (f, lexPatternCurr f pfx))).findIdx
      (fun q => lex_sim_accepting q.1 (lex_sim_step q.1 q.2 c))) =
      lexFirstAcc lex (pfx ++ [c]) := by
    rw [findIdx_map, lexFirstAcc]
    simp only [lex_sim_step, lexPatternCurr_snoc]
  have hres := lex_step_loop_snd_acc c (li + 1)
    (lex.patterns.map (fun f => (f, lexPatternCurr f pfx))) 0 lp li (by omega) hex
  rw [hfind] at hres
  have hfstl := lex_step_loop_fst c (li + 1)
    (lex.patterns.map (fun f => (f, lexPatternCurr f pfx))) 0 lp li
  have hfst2 : ((lex.patterns.map (fun f => (f, lexPatternCurr f pfx))).map
      (fun q => lex_sim_step q.1 q.2 c)) =
      lex.patterns.map (fun f => lexPatternCurr f (pfx ++ [c])) := by
    rw [List.map_map]
    apply List.map_congr_left
    intro f _
    show lex_sim_step f (lexPatternCurr f pfx) c = _
    rw [lexPatternCurr_snoc]
    rfl
  refine Prod.ext ?_ (Prod.ext ?_ (Prod.ext ?_ ?_)) <;>
    simp only [hfstl, hres, hfst2]
  · simp
  · simp

/-- `lex_step` on the simulations for a consumed prefix, when no pattern
accepts after the next character: every simulation advances, the recorded
pattern and index are kept, and the step reports finished. -/
theorem lex_step_fail (lex : SmbLex) (pfx : List WChar) (c : WChar)
    (lp li : Int) (hfail : lexAnyAccepting lex (pfx ++ [c]) = false) :
    lex_step lex (lex.patterns.map (fun f => lexPatternCurr f pfx)) lp li c =
      (lex.patterns.map (fun f => lexPatternCurr f (pfx ++ [c])), lp, li, true) := by
  have haccs : ∀ f ∈ lex.patterns,
      lex_sim_accepting f (lexPatternCurr f (pfx ++ [c])) = false :=
    lexAnyAccepting_false_elim lex (pfx ++ [c]) hfail
  rw [lex_step]
  have hzip : lex.patterns.zip (lex.patterns.map (fun f => lexPatternCurr f pfx)) =
      lex.patterns.map (fun f => (f, lexPatternCurr f pfx)) := zip_map_self _ _
  rw [hzip]
  have hnoq : ∀ q ∈ lex.patterns.map (fun f => (f, lexPatternCurr f pfx)),
      lex_sim_accepting q.1 (lex_sim_step q.1 q.2 c) = false := by
    intro q hq
    obtain ⟨f, hf, rfl⟩ := List.mem_map.mp hq
    show lex_sim_accepting f (lex_sim_step f (lexPatternCurr f pfx) c) = false
    rw [show lex_sim_step f (lexPatternCurr f pfx) c =
      lexPatternCurr f (pfx ++ [c]) from (lexPatternCurr_snoc f pfx c).symm]
    exact haccs f hf
  have hres := lex_step_loop_no_accept c (li + 1)
    (lex.patterns.map (fun f => (f, lexPatternCurr f pfx))) 0 lp li hnoq
  have hfstl := lex_step_loop_fst c (li + 1)
    (lex.patterns.map (fun f => (f, lexPatternCurr f pfx))) 0 lp li
  have hfst2 : ((lex.patterns.map (fun f => (f, lexPatternCurr f pfx))).map
      (fun q => lex_sim_step q.1 q.2 c)) =
      lex.patterns.map (fun f => lexPatternCurr f (pfx ++ [c])) := by
    rw [List.map_map]
    apply List.map_congr_left
    intro f _
    show lex_sim_step f (lexPatternCurr f pfx) c = _
    rw [lexPatternCurr_snoc]
    rfl
  refine Prod.ext ?_ (Prod.ext ?_ (Prod.ext ?_ ?_)) <;>
    simp only [hfstl, hres, hfst2]
  simp

/-- The invariant of the `lex_yylex` scan: after `k` consecutive accepting
steps (every prefix of length `1..k` has some accepting pattern), the loop
holds the advanced simulations, the earliest accepting pattern at length `k`
and index `k - 1`; it then carries that state through to the end of the
unbroken accepting run at length `n` and stops there. -/
theorem lex_yylex_loop_run (lex : SmbLex) (input : List WChar) (n : Nat)
    (hn : n ≤ input.length)
    (hacc : ∀ j : Nat, 1 ≤ j → j ≤ n → lexAnyAccepting lex (input.take j) = true)
    (hfail : lexAnyAccepting lex ((input ++ [0]).take (n + 1)) = false) :
    ∀ m k : Nat, 1 ≤ k → k ≤ n → n - k = m →
      lex_yylex_loop lex
          (lex.patterns.map (fun f => lexPatternCurr f (input.take k)))
          ((lexFirstAcc lex (input.take k) : Nat) : Int) ((k : Int) - 1)
          (input.drop k) =
        some (((lexFirstAcc lex (input.take n) : Nat) : Int), (n : Int) - 1) := by
  intro m
  induction m with
  | zero =>
    intro k hk1 hkn hm
    have hk : k = n := by omega
    subst hk
    by_cases hlt : k < input.length
    · have hdrop : input.drop k = input[k] :: input.drop (k + 1) :=
        List.drop_eq_getElem_cons hlt
      rw [hdrop, lex_yylex_loop]
      have htake : (input ++ [0]).take (k + 1) = input.take k ++ [input[k]] := by
        rw [List.take_append_of_le_length (by omega)]
        rw [List.take_succ, List.getElem?_eq_getElem hlt]
        rfl
      rw [htake] at hfail
      rw [lex_step_fail lex (input.take k) input[k] _ _ hfail]
      rfl
    · have hk : k = input.length := by omega
      have hdrop : input.drop k = [] := by
        rw [hk]; exact List.drop_length input
      rw [hdrop, lex_yylex_loop]
      have htake : (input ++ [0]).take (k + 1) = input.take k ++ [0] := by
        rw [hk, List.take_length]
        apply List.take_of_length_le
        simp
      rw [htake] at hfail
      rw [lex_step_fail lex (input.take k) 0 _ _ hfail]
      rfl
  | succ m ih =>
    intro k hk1 hkn hm
    have hlt : k < input.length := by omega
    have hdrop : input.drop k = input[k] :: input.drop (k + 1) :=
      List.drop_eq_getElem_cons hlt
    rw [hdrop, lex_yylex_loop]
    have htake : input.take (k + 1) = input.take k ++ [input[k]] := by
      rw [List.take_succ, List.getElem?_eq_getElem hlt]
      rfl
    have haccs : lexAnyAccepting lex (input.take k ++ [input[k]]) = true := by
      rw [← htake]
      exact hacc (k + 1) (by omega) (by omega)
    rw [lex_step_acc lex (input.take k) input[k] _ _ haccs]
    show lex_yylex_loop lex
        (lex.patterns.map (fun f => lexPatternCurr f (input.take k ++ [input[k]])))
        ((lexFirstAcc lex (input.take k ++ [input[k]]) : Nat) : Int)
        (((k : Int) - 1) + 1) (input.drop (k + 1)) = _
    rw [← htake]
    have hidx : ((k : Int) - 1) + 1 = ((k + 1 : Nat) : Int) - 1 := by
      push_cast
      ring
    rw [hidx]
    exact ih (k + 1) (by omega) (by omega) (by omega)

/-- C3 counterexample: the lexer loaded with the patterns for `a` (token 1)
and `aaa` (token 2), run on the input `aaa`.  The `aaa` pattern accepts the
strictly longer prefix of length 3, yet `lex_yylex` returns token 1 with
length 1: the scan stops at the first step with no newly accepting pattern
(after `a` the second character leaves both patterns non-accepting), so the
longer match is never seen. -/
theorem lex_yylex_gap_counterexample :
    lex_sim_accepting exMaaa (lexPatternCurr exMaaa [97, 97, 97]) = true ∧
    lex_yylex exLexGap [97, 97, 97] = some (some 1, 1) := by
  constructor
  · decide
  · decide

/-- C3 amended: the scan's accepting run must be unbroken.  For every lexer
and input, if every prefix length `1..n` has some accepting pattern and
length `n + 1` (possibly consuming the terminating NUL) has none, then
`lex_yylex` returns length `n` together with the token of the
earliest-loaded pattern accepting at length `n` — ties at the final length
go to the earlier-loaded pattern, but a strictly longer match beyond the gap
at `n + 1` is never reached. -/
theorem lex_yylex_ranking (lex : SmbLex) (input : List WChar) (n : Nat)
    (hn : n ≤ input.length) (hpos : 1 ≤ n)
    (hacc : ∀ j : Nat, 1 ≤ j → j ≤ n → lexAnyAccepting lex (input.take j) = true)
    (hfail : lexAnyAccepting lex ((input ++ [0]).take (n + 1)) = false) :
    lex_yylex lex input =
      some (some (lex.tokens.getD (lexFirstAcc lex (input.take n)) 0), (n : Int)) := by
  obtain ⟨c, rest, rfl⟩ : ∃ c rest, input = c :: rest := by
    cases input with
    | nil => simp at hn; omega
    | cons c rest => exact ⟨c, rest, rfl⟩
  have hacc1 : lexAnyAccepting lex ([] ++ [c]) = true := by
    have := hacc 1 (by omega) (by omega)
    simpa using this
  have hstep : lex_step lex (lex_start_sims lex) (-1) (-1) c =
      (lex.patterns.map (fun f => lexPatternCurr f [c]),
        ((lexFirstAcc lex [c] : Nat) : Int), 0, false) := by
    have h0 : lex_start_sims lex =
        lex.patterns.map (fun f => lexPatternCurr f []) := rfl
    rw [h0]
    have h1 := lex_step_acc lex [] c (-1) (-1) hacc1
    simpa using h1
  have hloop := lex_yylex_loop_run lex (c :: rest) n hn hacc hfail (n - 1) 1
    (le_refl 1) hpos (by omega)
  rw [show (c :: rest).take 1 = [c] from rfl] at hloop
  rw [show (c :: rest).drop 1 = rest from rfl] at hloop
  rw [show ((1 : Nat) : Int) - 1 = 0 from by decide] at hloop
  rw [lex_yylex, lex_yylex_loop, hstep]
  show (lex_yylex_loop lex (lex.patterns.map (fun f => lexPatternCurr f [c]))
      ((lexFirstAcc lex [c] : Nat) : Int) 0 rest).map
      (fun r => (lex_get_token lex true r.1, lex_get_length true r.2)) =
    some (some (lex.tokens.getD (lexFirstAcc lex ((c :: rest).take n)) 0), (n : Int))
  rw [hloop]
  show some (lex_get_token lex true
        ((lexFirstAcc lex ((c :: rest).take n) : Nat) : Int),
      lex_get_length true ((n : Int) - 1)) = _
  have htok : lex_get_token lex true
      ((lexFirstAcc lex ((c :: rest).take n) : Nat) : Int) =
      some (lex.tokens.getD (lexFirstAcc lex ((c :: rest).take n)) 0) := by
    rw [lex_get_token]
    rw [if_neg (by simp :
      ¬((!true || decide (((lexFirstAcc lex ((c :: rest).take n) : Nat) : Int) < 0)) = true))]
    rw [Int.toNat_natCast]
  have hlen : lex_get_length true ((n : Int) - 1) = (n : Int) := by
    rw [lex_get_length]
    simp
  rw [htok, hlen]

/-- Witness for the amended C3 at the one-pattern lexer for `a` on input
`a`: the accepting run has length 1, the failing step is the NUL step, and
the returned token is the pattern's token 7 with length 1. -/
theorem lex_yylex_ranking_witness :
    (1 ≤ ([97] : List WChar).length ∧
      (∀ j : Nat, 1 ≤ j → j ≤ 1 →
        lexAnyAccepting exLexA (([97] : List WChar).take j) = true) ∧
      lexAnyAccepting exLexA ((([97] : List WChar) ++ [0]).take 2) = false) ∧
    lex_yylex exLexA [97] =
      some (some (exLexA.tokens.getD (lexFirstAcc exLexA (([97] : List WChar).take 1)) 0),
        (1 : Int)) :=
  ⟨⟨by decide, by decide, by decide⟩,
    lex_yylex_ranking exLexA [97] 1 (by decide) (by decide) (by decide) (by decide)⟩
